import Mathlib

set_option linter.unusedSectionVars false

/-!
Verification of the Toyni STARK engine against its specification.

This file contains a shallow embedding, in Lean 4, of the core of the Toyni
repository (a didactic STARK prover/verifier written in Rust over the
BLS12-381 scalar field), together with theorems settling the specification
claims about it.

Modelling conventions:
* the prime field `ark_bls12_381::Fr` is modelled by an arbitrary
  `Field F` with decidable equality (all claims are field-generic, and the
  BLS12-381 scalar field is one such field); concrete witnesses instantiate
  `F` with small prime fields `ZMod p`;
* a trace row (`HashMap<String, u64>` in the source) is an opaque type `R`;
  constraint closures are arbitrary functions out of `R`;
* `rand::thread_rng` / `rand::random` draws are passed explicitly: the
  prover takes a stream of FRI challenges, the verifier a stream of
  sampled query indices;
* a Rust `panic!` / failed `unwrap` is modelled by `Option.none`;
* FFT evaluation domains of size `n` are represented by their generator
  `ω` (a primitive `n`-th root of unity); `ark`'s radix-2 inverse FFT is
  modelled by the inverse DFT formula it computes.
-/

namespace Toyni

variable {F : Type} [Field F] [DecidableEq F]

/-- Removal of trailing zero coefficients, as performed by
`Polynomial::new` in `src/math/polynomial.rs` (pop while the last
coefficient is zero). -/
def stripTrailingZeros (l : List F) : List F :=
  (l.reverse.dropWhile (fun c => decide (c = 0))).reverse

/-- Model of `Polynomial` from `src/math/polynomial.rs`: dense coefficients in
ascending order of power. -/
structure Polynomial (F : Type) where
  coefficients : List F
deriving DecidableEq

/-- Model of `Polynomial::new`: strips trailing zeros. -/
def Polynomial.new (coefficients : List F) : Polynomial F :=
  ⟨stripTrailingZeros coefficients⟩

/-- Model of `Polynomial::degree`: length minus one; `0` for the zero polynomial. -/
def Polynomial.degree (p : Polynomial F) : ℕ :=
  if p.coefficients.isEmpty then 0 else p.coefficients.length - 1

/-- Model of `Polynomial::leading_coefficient`: last coefficient, or `0` when empty. -/
def Polynomial.leadingCoefficient (p : Polynomial F) : F :=
  (p.coefficients.getLast?).getD 0

/-- Model of `Polynomial::evaluate`: Horner's method (`result = result * x + coeff`,
iterating from the leading coefficient down). -/
def Polynomial.evaluate (p : Polynomial F) (x : F) : F :=
  p.coefficients.foldr (fun c acc => acc * x + c) 0

/-- Model of `Polynomial::add`: coefficient-wise addition up to the longer length,
then `new`. -/
def Polynomial.add (p other : Polynomial F) : Polynomial F :=
  Polynomial.new ((List.range (max p.coefficients.length other.coefficients.length)).map
    (fun i => p.coefficients.getD i 0 + other.coefficients.getD i 0))

/-- Model of `Polynomial::multiply`: returns `new []` when either side has no
coefficients, otherwise the coefficient convolution of the two lists
(the source's double loop `result[i + j] += a[i] * b[j]`), then `new`. -/
def Polynomial.multiply (p other : Polynomial F) : Polynomial F :=
  if p.coefficients.isEmpty ∨ other.coefficients.isEmpty then Polynomial.new []
  else
    Polynomial.new ((List.range (p.degree + other.degree + 1)).map
      (fun k => ∑ i ∈ Finset.range (k + 1),
        p.coefficients.getD i 0 * other.coefficients.getD (k - i) 0))

/-- Model of `Polynomial::is_zero`: all coefficients are zero. -/
def Polynomial.isZero (p : Polynomial F) : Bool :=
  p.coefficients.all (fun c => decide (c = 0))

/-- Model of `Polynomial::zero`: `new [0]`. -/
def Polynomial.zero : Polynomial F :=
  Polynomial.new [(0 : F)]

/-- The inner `for j in 0..=divisor_degree` loop of `Polynomial::divide`:
`remainder[i + j] -= qi * divisor.coefficients[j]`. -/
def subLoop (dco : List F) (qi : F) (i dv : ℕ) (r : List F) : List F :=
  (List.range (dv + 1)).foldl
    (fun r j => r.set (i + j) (r.getD (i + j) 0 - qi * dco.getD j 0)) r

/-- One iteration (at index `i`) of the long-division loop of
`Polynomial::divide`: skip when the running leading coefficient is zero,
otherwise set `quotient[i]` and subtract the scaled divisor. -/
def divStep (dco : List F) (dlc : F) (dv : ℕ) (i : ℕ) (qr : List F × List F) :
    List F × List F :=
  let lc := qr.2.getD (i + dv) 0
  if lc = 0 then qr
  else
    let qi := lc / dlc
    (qr.1.set i qi, subLoop dco qi i dv qr.2)

/-- The `for i in (0..=dividend_degree - divisor_degree).rev()` loop of
`Polynomial::divide`: `divLoop dco dlc dv m` runs `divStep` at indices
`m-1, m-2, …, 0`. -/
def divLoop (dco : List F) (dlc : F) (dv : ℕ) : ℕ → List F × List F → List F × List F
  | 0, qr => qr
  | m + 1, qr => divLoop dco dlc dv m (divStep dco dlc dv m qr)

/-- Model of `Polynomial::divide`: long division; `none` when the divisor has no
coefficients or a zero leading coefficient (the source's `DivideByZero`
result); early return `(zero, self)` when the dividend degree is smaller.
When the dividend vector is empty and the divisor has degree 0 the early
return is skipped (`0 < 0` is false) and the source's first loop iteration
reads `remainder[0]` on an empty vector — an out-of-bounds panic, modelled
as `none`. This is the loop's only out-of-bounds access: every read is at
`remainder[i + j]` with `i + j ≤ dividend_degree`, which is below the
dividend length whenever the dividend is non-empty. -/
def Polynomial.divide (p divisor : Polynomial F) :
    Option (Polynomial F × Polynomial F) :=
  if divisor.coefficients.isEmpty ∨ divisor.leadingCoefficient = 0 then none
  else
    let dd := p.degree
    let dv := divisor.degree
    if dd < dv then some (Polynomial.zero, p)
    else if p.coefficients.isEmpty then none
    else
      let qr := divLoop divisor.coefficients divisor.leadingCoefficient dv (dd - dv + 1)
        (List.replicate (dd - dv + 1) 0, p.coefficients)
      some (Polynomial.new qr.1, Polynomial.new qr.2)

/-- The inverse DFT computed by `ark`'s radix-2 `ifft` over the size-`n`
domain generated by `ω` (`Evaluations::from_vec_and_domain(v, D).interpolate()`):
coefficient `j` is `n⁻¹ · Σ_i v[i] · ω⁻¹^(i·j)` with `n = v.length`. -/
def idft (v : List F) (ω : F) : List F :=
  (List.range v.length).map (fun j =>
    ((v.length : F))⁻¹ * ∑ i ∈ Finset.range v.length, v.getD i 0 * (ω⁻¹) ^ (i * j))

/-- Model of `domain.vanishing_polynomial()` for the size-`n` radix-2 domain:
`x^n − 1` (for `n = 0` this is the zero polynomial). -/
def vanishingPolynomial (n : ℕ) : Toyni.Polynomial F :=
  Polynomial.new ((List.range (n + 1)).map
    (fun i => (if i = n then (1 : F) else 0) + (if i = 0 then -1 else 0)))

/-- Model of `ExecutionTrace` from `src/vm/trace.rs`; a row (`HashMap<String,u64>`
in the source) is an opaque type `R`. -/
structure ExecutionTrace (R : Type) where
  height : ℕ
  width : ℕ
  trace : List R

/-- Model of `ExecutionTrace::get_column`: row lookup by index. -/
def ExecutionTrace.getColumn {R : Type} [Inhabited R] (t : ExecutionTrace R) (i : ℕ) : R :=
  t.trace.getD i default

variable {R : Type} [Inhabited R]

/-- Model of `TransitionConstraint` from `src/vm/constraints.rs`. -/
structure TransitionConstraint (R F : Type) where
  name : String
  vars : List String
  evaluate : R → R → F

/-- Model of `BoundaryConstraint` from `src/vm/constraints.rs`. -/
structure BoundaryConstraint (R F : Type) where
  name : String
  row : ℕ
  vars : List String
  evaluate : R → F

/-- Model of `ConstraintSystem` from `src/vm/constraints.rs`. -/
structure ConstraintSystem (R F : Type) where
  transition_constraints : List (TransitionConstraint R F)
  boundary_constraints : List (BoundaryConstraint R F)

/-- Model of `ConstraintSystem::evaluate`: for each pair of consecutive rows
(`i` from `0` to `height − 2`) push every transition-constraint value, then
push every boundary-constraint value. -/
def ConstraintSystem.evaluate (cs : ConstraintSystem R F) (t : ExecutionTrace R) : List F :=
  ((List.range (t.height - 1)).map (fun i =>
    cs.transition_constraints.map
      (fun c => c.evaluate (t.getColumn i) (t.getColumn (i + 1))))).flatten
  ++ cs.boundary_constraints.map (fun c => c.evaluate (t.getColumn c.row))

/-- Model of `ConstraintSystem::is_satisfied`: all evaluations are zero. -/
def ConstraintSystem.isSatisfied (cs : ConstraintSystem R F) (t : ExecutionTrace R) : Bool :=
  (cs.evaluate t).all (fun x => decide (x = 0))

/-- The evaluation vector built inside
`ConstraintSystem::interpolate_transition_constraint`: a zero vector of
length `height`, with positions `0 .. height − 2` overwritten by the
constraint values at consecutive row pairs (the last slot stays `0`). -/
def transitionEvals (t : ExecutionTrace R) (c : TransitionConstraint R F) : List F :=
  (List.range (t.height - 1)).foldl
    (fun v i => v.set i (c.evaluate (t.getColumn i) (t.getColumn (i + 1))))
    (List.replicate t.height 0)

/-- The evaluation vector built inside
`ConstraintSystem::interpolate_boundary_constraint`: a zero vector of
length `height` with position `row` overwritten by the constraint value. -/
def boundaryEvals (t : ExecutionTrace R) (c : BoundaryConstraint R F) : List F :=
  (List.replicate t.height (0 : F)).set c.row (c.evaluate (t.getColumn c.row))

/-- Model of `ConstraintSystem::interpolate_transition_constraint`: interpolate the
evaluation vector over the size-`height` domain generated by `ω`. -/
def ConstraintSystem.interpolateTransitionConstraint (ω : F) (t : ExecutionTrace R)
    (c : TransitionConstraint R F) : Toyni.Polynomial F :=
  Polynomial.new (idft (transitionEvals t c) ω)

/-- Model of `ConstraintSystem::interpolate_boundary_constraint`: interpolate the
evaluation vector over the size-`height` domain generated by `ω`. -/
def ConstraintSystem.interpolateBoundaryConstraint (ω : F) (t : ExecutionTrace R)
    (c : BoundaryConstraint R F) : Toyni.Polynomial F :=
  Polynomial.new (idft (boundaryEvals t c) ω)

/-- Model of `ConstraintSystem::interpolate_all_constraints`: transition-constraint
polynomials in declaration order, then boundary-constraint polynomials in
declaration order. -/
def ConstraintSystem.interpolateAllConstraints (cs : ConstraintSystem R F) (ω : F)
    (t : ExecutionTrace R) : List (Toyni.Polynomial F) :=
  cs.transition_constraints.map (ConstraintSystem.interpolateTransitionConstraint ω t)
  ++ cs.boundary_constraints.map (ConstraintSystem.interpolateBoundaryConstraint ω t)

/-- Model of `fri_fold` from `src/math/fri.rs`: `none` models the `assert!` panic on
an odd length; otherwise pair `v[i]` with `v[i + n/2]` and combine with the
challenge (the source's push loop). -/
def friFold (evals : List F) (beta : F) : Option (List F) :=
  if evals.length % 2 = 0 then
    some ((List.range (evals.length / 2)).foldl (fun acc i =>
      acc ++ [(evals.getD i 0 + evals.getD (i + evals.length / 2) 0) * (2 : F)⁻¹
        + (evals.getD i 0 - evals.getD (i + evals.length / 2) 0) * (2 : F)⁻¹ * beta]) [])
  else none

/-- Model of `StarkProof` from `src/math/stark.rs`. -/
structure StarkProof (F : Type) where
  quotient_eval_domain : List F
  fri_layers : List (List F)
  fri_challenges : List F
  combined_constraint : Toyni.Polynomial F
  quotient_poly : Toyni.Polynomial F
deriving DecidableEq

/-- The `while q_evals.len() > 4` loop of `StarkProver::generate_proof`,
written with explicit fuel (any fuel at least the starting length is
enough, since a fold halves the length): returns the folded layers and the
challenges consumed from the stream `betas`. -/
def friBuild (betas : ℕ → F) : ℕ → ℕ → List F → Option (List (List F) × List F)
  | 0, _, evals => if 4 < evals.length then none else some ([], [])
  | fuel + 1, k, evals =>
    if 4 < evals.length then
      match friFold evals (betas k) with
      | none => none
      | some folded =>
        match friBuild betas fuel (k + 1) folded with
        | none => none
        | some (ls, chs) => some (folded :: ls, betas k :: chs)
    else some ([], [])

/-- Model of `VERIFIER_QUERIES` from `src/math/stark.rs`. -/
def VERIFIER_QUERIES : ℕ := 80

/-- Model of `StarkProver::generate_proof`, parametrised by the generators `ωd` of
the size-`height` trace domain and `ωe` of the size-`2·height` extended
domain, and by the FRI challenge stream `betas`; `none` models a panic. -/
def generateProof (ωd ωe : F) (betas : ℕ → F) (t : ExecutionTrace R)
    (cs : ConstraintSystem R F) : Option (StarkProof F) :=
  let traceLen := t.height
  let constraintPolys := cs.interpolateAllConstraints ωd t
  let combined := constraintPolys.foldl (fun acc p => acc.add p) Polynomial.zero
  let cEvals := (List.range (2 * traceLen)).map (fun i => combined.evaluate (ωe ^ i))
  let cPoly := Polynomial.new (idft cEvals ωe)
  let zPoly : Toyni.Polynomial F := vanishingPolynomial traceLen
  match cPoly.divide zPoly with
  | none => none
  | some (quotientPoly, _rem) =>
    let qEvals := (List.range (2 * traceLen)).map (fun i => quotientPoly.evaluate (ωe ^ i))
    match friBuild betas qEvals.length 0 qEvals with
    | none => none
    | some (ls, chs) =>
      some { quotient_eval_domain := qEvals
             fri_layers := qEvals :: ls
             fri_challenges := chs
             combined_constraint := combined
             quotient_poly := quotientPoly }

/-- Model of `StarkVerifier` from `src/math/stark.rs` (the `constraints` field is
declared `#[allow(unused)]` in the source). -/
structure StarkVerifier (R F : Type) where
  constraints : ConstraintSystem R F
  trace_len : ℕ

/-- The FRI-replay loop of `StarkVerifier::verify`: fold the current layer
with each recorded challenge and compare with the next recorded layer;
`none` models the fold panic on an odd-length layer. -/
def friReplay : List F → List F → List (List F) → Option Bool
  | _, [], _ => some true
  | cur, beta :: bs, layers =>
    match friFold cur beta with
    | none => none
    | some folded =>
      match layers with
      | [] => some false
      | l :: ls => if l = folded then friReplay l bs ls else some false

/-- Model of `StarkVerifier::verify`, parametrised by the generator `ωe` of the
size-`2·trace_len` extended domain and the stream `rand` of sampled raw
indices (`rand::random::<usize>()` per query): 80 consistency spot checks
`Q(x₀)·Z(x₀) = C(x₀)` at `x₀ = ωe^(rand i % (2·trace_len))`, then the FRI
replay. -/
def StarkVerifier.verify (v : StarkVerifier R F) (ωe : F) (proof : StarkProof F)
    (rand : ℕ → ℕ) : Option Bool :=
  if (List.range VERIFIER_QUERIES).all (fun i =>
      decide (proof.quotient_poly.evaluate (ωe ^ (rand i % (2 * v.trace_len)))
          * (vanishingPolynomial v.trace_len).evaluate (ωe ^ (rand i % (2 * v.trace_len)))
        = proof.combined_constraint.evaluate (ωe ^ (rand i % (2 * v.trace_len)))))
  then friReplay proof.quotient_eval_domain proof.fri_challenges (proof.fri_layers.drop 1)
  else some false

/-- The property that the recorded FRI layers replay exactly: folding the
current layer with each recorded challenge in order yields precisely the
next recorded layer. -/
def ReplayMatches : List F → List F → List (List F) → Prop
  | _, [], _ => True
  | _, _ :: _, [] => False
  | cur, beta :: bs, l :: ls => friFold cur beta = some l ∧ ReplayMatches l bs ls

/-- Model of `MerkleProof` from `src/merkle.rs`; a 32-byte digest is an opaque
type `α` and SHA-256 of the concatenation of two digests an opaque
`combine` function. -/
structure MerkleProof (α : Type) where
  path : List α
  position : List Bool

/-- Model of `MerkleTree` from `src/merkle.rs`. -/
structure MerkleTree (α : Type) where
  leaves : List α
  levels : List (List α)

/-- One level-combining pass of `MerkleTree::build_tree` (the
`step_by(2)` loop): hash adjacent pairs, duplicating an unpaired tail. -/
def nextLevel {α : Type} (combine : α → α → α) : List α → List α
  | [] => []
  | [x] => [combine x x]
  | x :: y :: rest => combine x y :: nextLevel combine rest

/-- The `while current_level.len() > 1` loop of `MerkleTree::build_tree`,
with explicit fuel (the level length strictly shrinks, so fuel at least
the number of leaves is enough): all levels from the leaves up to the
root. -/
def buildLevels {α : Type} (combine : α → α → α) : ℕ → List α → List (List α)
  | 0, cur => [cur]
  | fuel + 1, cur =>
    if 1 < cur.length then cur :: buildLevels combine fuel (nextLevel combine cur)
    else [cur]

/-- Model of `MerkleTree::new` followed by `build_tree`. -/
def MerkleTree.new {α : Type} (combine : α → α → α) (leaves : List α) : MerkleTree α :=
  { leaves := leaves, levels := buildLevels combine leaves.length leaves }

/-- The per-level body of `MerkleTree::get_proof`: record the sibling and
its side for each level below the root (an unpaired tail records the node
itself with `position = true`). -/
def proofGo {α : Type} [Inhabited α] : List (List α) → ℕ → List (α × Bool)
  | [], _ => []
  | level :: rest, idx =>
    (if level.length ≤ (if idx % 2 = 0 then idx + 1 else idx - 1)
     then (level.getD idx default, true)
     else (level.getD (if idx % 2 = 0 then idx + 1 else idx - 1) default,
       decide (idx % 2 = 1))) :: proofGo rest (idx / 2)

/-- Model of `MerkleTree::get_proof`: `none` when the index is out of range,
otherwise the sibling path and side bits over all levels but the last. -/
def MerkleTree.getProof {α : Type} [Inhabited α] (t : MerkleTree α) (index : ℕ) :
    Option (MerkleProof α) :=
  if t.leaves.length ≤ index then none
  else
    let entries := proofGo (t.levels.take (t.levels.length - 1)) index
    some { path := entries.map Prod.fst, position := entries.map Prod.snd }

/-- Model of `MerkleTree::root`: first hash of the last level, when present. -/
def MerkleTree.root {α : Type} (t : MerkleTree α) : Option α :=
  t.levels.getLast?.bind (fun level => level.head?)

/-- The hash-chaining loop of `verify_merkle_proof`. -/
def verifyGo {α : Type} (combine : α → α → α) : α → List (α × Bool) → α
  | cur, [] => cur
  | cur, (sib, isRight) :: rest =>
    verifyGo combine (if isRight then combine sib cur else combine cur sib) rest

/-- Model of `verify_merkle_proof`: fold the path bottom-up (`position = true`
hashes the sibling first) and compare with the root. -/
def verifyMerkleProof {α : Type} [DecidableEq α] (combine : α → α → α) (leaf : α)
    (proof : MerkleProof α) (root : α) : Bool :=
  decide (verifyGo combine leaf (proof.path.zip proof.position) = root)

/-- The invariant documented on `Polynomial`: the coefficient vector has no
trailing zero coefficients. -/
def NoTrailingZeros (l : List F) : Prop :=
  l.getLast? ≠ some 0

instance (l : List F) : Decidable (NoTrailingZeros l) := by
  unfold NoTrailingZeros; infer_instance

/-- The evaluation order asserted by the specification ("H−1 values per
transition constraint … transitions first in declaration order, then
boundaries"): all evaluations of each transition constraint grouped
together. Stated from the specification's words, for comparison with
`ConstraintSystem.evaluate` (the code's row-major order). -/
def ConstraintSystem.evaluateGrouped (cs : ConstraintSystem R F) (t : ExecutionTrace R) :
    List F :=
  (cs.transition_constraints.map (fun c =>
    (List.range (t.height - 1)).map
      (fun i => c.evaluate (t.getColumn i) (t.getColumn (i + 1))))).flatten
  ++ cs.boundary_constraints.map (fun c => c.evaluate (t.getColumn c.row))

end Toyni

section WitnessData

/-- A kernel-computable field structure on the 5-element field, with
`a⁻¹ = a³` (Fermat), used so that concrete witnesses evaluate by `decide`. -/
instance instFieldFin5 : Field (Fin 5) :=
  { (inferInstanceAs (CommRing (Fin 5))) with
    inv := fun a => a ^ 3
    div := fun a b => a * b ^ 3
    div_eq_mul_inv := fun _ _ => rfl
    exists_pair_ne := ⟨0, 1, by decide⟩
    mul_inv_cancel := by decide
    inv_zero := by decide
    nnqsmul := _
    qsmul := _ }

/-- A kernel-computable field structure on the 17-element field, with
`a⁻¹ = a¹⁵` (Fermat); in this field `2` is a primitive 8th root of unity,
mirroring the radix-2 domains of the BLS12-381 scalar field. -/
instance instFieldFin17 : Field (Fin 17) :=
  { (inferInstanceAs (CommRing (Fin 17))) with
    inv := fun a => a ^ 15
    div := fun a b => a * b ^ 15
    div_eq_mul_inv := fun _ _ => rfl
    exists_pair_ne := ⟨0, 1, by decide⟩
    mul_inv_cancel := by decide
    inv_zero := by decide
    nnqsmul := _
    qsmul := _ }

/-- Height-2, width-1 witness trace `x = 0, 1`. -/
def wTrace : Toyni.ExecutionTrace ℕ :=
  { height := 2, width := 1, trace := [0, 1] }

/-- Witness transition constraint `next.x − cur.x − 1` over `Fin 5`. -/
def wIncr : Toyni.TransitionConstraint ℕ (Fin 5) :=
  { name := "increment", vars := ["x"]
    evaluate := fun cur next => (next : Fin 5) - (cur : Fin 5) - 1 }

/-- Witness boundary constraint `row.x` at row 0 over `Fin 5`. -/
def wStart : Toyni.BoundaryConstraint ℕ (Fin 5) :=
  { name := "starts_at_0", row := 0, vars := ["x"]
    evaluate := fun row => (row : Fin 5) }

/-- Witness constraint system over `Fin 5`. -/
def wCS : Toyni.ConstraintSystem ℕ (Fin 5) :=
  { transition_constraints := [wIncr], boundary_constraints := [wStart] }

/-- Height-3 all-zero trace used to exhibit the evaluation order. -/
def c5Trace : Toyni.ExecutionTrace ℕ :=
  { height := 3, width := 1, trace := [0, 0, 0] }

/-- A transition constraint that always evaluates to `0`. -/
def c5A : Toyni.TransitionConstraint ℕ (Fin 5) :=
  { name := "a", vars := [], evaluate := fun _ _ => 0 }

/-- A transition constraint that always evaluates to `1`. -/
def c5B : Toyni.TransitionConstraint ℕ (Fin 5) :=
  { name := "b", vars := [], evaluate := fun _ _ => 1 }

/-- Constraint system with two distinguishable transition constraints. -/
def c5CS : Toyni.ConstraintSystem ℕ (Fin 5) :=
  { transition_constraints := [c5A, c5B], boundary_constraints := [] }

/-- The E2 trace of the specification: `T[i].x = i + 1`, height 4. -/
def e2Trace : Toyni.ExecutionTrace ℕ :=
  { height := 4, width := 1, trace := [1, 2, 3, 4] }

/-- The E2 transition constraint `next.x − cur.x − 1`, over `Fin 17`
(in which `2` is a primitive 8th root of unity and `4 = 2²` a primitive
4th root, mirroring the nested radix-2 domains of the source field). -/
def e2Incr : Toyni.TransitionConstraint ℕ (Fin 17) :=
  { name := "increment", vars := ["x"]
    evaluate := fun cur next => (next : Fin 17) - (cur : Fin 17) - 1 }

/-- The E2 boundary constraint `row.x` at row 0, over `Fin 17`. -/
def e2Start : Toyni.BoundaryConstraint ℕ (Fin 17) :=
  { name := "starts_at_0", row := 0, vars := ["x"]
    evaluate := fun row => (row : Fin 17) }

/-- The E2 constraint system. -/
def e2CS : Toyni.ConstraintSystem ℕ (Fin 17) :=
  { transition_constraints := [e2Incr], boundary_constraints := [e2Start] }

/-- An injective-enough stand-in for the SHA-256 pair compression in
Merkle witnesses. -/
def wCombine : ℕ → ℕ → ℕ := fun a b => 2 * a + 3 * b + 1

end WitnessData

section Semantics

variable {F : Type} [Field F] [DecidableEq F]

open Toyni (stripTrailingZeros NoTrailingZeros)

/-- Interpretation of a coefficient list as a Mathlib polynomial (a proof
device; the executable translation of the code is `Toyni.Polynomial`). -/
noncomputable def toPoly (l : List F) : Polynomial F :=
  l.foldr (fun a p => Polynomial.C a + Polynomial.X * p) 0

theorem toPoly_nil : toPoly ([] : List F) = 0 := rfl

theorem toPoly_cons (a : F) (l : List F) :
    toPoly (a :: l) = Polynomial.C a + Polynomial.X * toPoly l := rfl

theorem toPoly_coeff (l : List F) (k : ℕ) : (toPoly l).coeff k = l.getD k 0 := by
  induction l generalizing k with
  | nil => simp [toPoly]
  | cons a t ih =>
    cases k with
    | zero => simp [toPoly_cons]
    | succ k => simp [toPoly_cons, Polynomial.coeff_X_mul, ih]

theorem strip_decomp (l : List F) :
    ∃ z : List F, l = stripTrailingZeros l ++ z ∧ ∀ c ∈ z, c = 0 := by
  refine ⟨(l.reverse.takeWhile (fun c => decide (c = 0))).reverse, ?_, ?_⟩
  · show l = (l.reverse.dropWhile (fun c => decide (c = 0))).reverse ++
      (l.reverse.takeWhile (fun c => decide (c = 0))).reverse
    conv_lhs => rw [← l.reverse_reverse]
    rw [← List.reverse_append, List.takeWhile_append_dropWhile]
  · intro c hc
    rw [List.mem_reverse] at hc
    have hp := List.mem_takeWhile_imp hc
    simpa using hp

theorem getD_strip (l : List F) (k : ℕ) :
    (stripTrailingZeros l).getD k 0 = l.getD k 0 := by
  obtain ⟨z, hz, hzero⟩ := strip_decomp l
  conv_rhs => rw [hz]
  by_cases h : k < (stripTrailingZeros l).length
  · rw [List.getD_eq_getElem _ _ h,
      List.getD_eq_getElem _ _ (by rw [List.length_append]; omega),
      List.getElem_append_left h]
  · rw [List.getD_eq_default _ _ (by omega)]
    by_cases h2 : k < (stripTrailingZeros l ++ z).length
    · rw [List.getD_eq_getElem _ _ h2, List.getElem_append_right (by omega)]
      exact (hzero _ (List.getElem_mem _)).symm
    · rw [List.getD_eq_default _ _ (by omega)]

theorem toPoly_strip (l : List F) : toPoly (stripTrailingZeros l) = toPoly l := by
  ext k
  rw [toPoly_coeff, toPoly_coeff, getD_strip]

theorem head?_dropWhile {α : Type} (p : α → Bool) :
    ∀ (l : List α) (x : α), (l.dropWhile p).head? = some x → p x = false := by
  intro l
  induction l with
  | nil => intro x h; simp at h
  | cons a t ih =>
    intro x h
    rw [List.dropWhile_cons] at h
    by_cases ha : p a
    · rw [if_pos ha] at h; exact ih x h
    · rw [if_neg ha] at h
      simp at h
      rw [← h]
      exact Bool.not_eq_true _ ▸ (by simpa using ha)

theorem strip_noTrailingZeros (l : List F) : NoTrailingZeros (stripTrailingZeros l) := by
  unfold NoTrailingZeros stripTrailingZeros
  rw [List.getLast?_reverse]
  intro h
  have := head?_dropWhile (fun c : F => decide (c = 0)) l.reverse 0 h
  simp at this

theorem strip_of_noTrailingZeros {l : List F} (h : NoTrailingZeros l) :
    stripTrailingZeros l = l := by
  unfold stripTrailingZeros
  cases hrev : l.reverse with
  | nil =>
    have : l = [] := by simpa using congrArg List.reverse hrev
    simp [this]
  | cons a t =>
    have ha : ¬ (a = 0) := by
      intro rfl0
      apply h
      rw [← List.head?_reverse, hrev, rfl0]
      rfl
    rw [List.dropWhile_cons_of_neg (by simpa using ha), ← hrev, List.reverse_reverse]

theorem new_eta {p : Toyni.Polynomial F} (h : NoTrailingZeros p.coefficients) :
    Toyni.Polynomial.new p.coefficients = p := by
  unfold Toyni.Polynomial.new
  rw [strip_of_noTrailingZeros h]

theorem getLast?_eq_getD {l : List F} (h : l ≠ []) :
    l.getLast? = some (l.getD (l.length - 1) 0) := by
  rw [List.getLast?_eq_getElem?]
  have hlen : l.length - 1 < l.length := by
    cases l with
    | nil => exact absurd rfl h
    | cons a t => simp
  rw [List.getElem?_eq_getElem hlen, List.getD_eq_getElem _ _ hlen]

theorem eq_of_toPoly_eq {l l' : List F} (h : NoTrailingZeros l) (h' : NoTrailingZeros l')
    (heq : toPoly l = toPoly l') : l = l' := by
  have hD : ∀ k, l.getD k 0 = l'.getD k 0 := by
    intro k
    rw [← toPoly_coeff, ← toPoly_coeff, heq]
  have hlen : l.length = l'.length := by
    by_contra hne
    rcases Nat.lt_or_ge l.length l'.length with hlt | hge
    · have hne' : l' ≠ [] := by
        intro hnil; rw [hnil] at hlt; simp at hlt
      apply h'
      rw [getLast?_eq_getD hne', ← hD, List.getD_eq_default _ _ (by omega)]
    · have hlt : l'.length < l.length := by omega
      have hne' : l ≠ [] := by
        intro hnil; rw [hnil] at hlt; simp at hlt
      apply h
      rw [getLast?_eq_getD hne', hD, List.getD_eq_default _ _ (by omega)]
  apply List.ext_getElem hlen
  intro i h1 h2
  rw [← List.getD_eq_getElem _ 0 h1, ← List.getD_eq_getElem _ 0 h2]
  exact hD i

theorem evaluate_eq_eval (p : Toyni.Polynomial F) (x : F) :
    p.evaluate x = (toPoly p.coefficients).eval x := by
  unfold Toyni.Polynomial.evaluate
  induction p.coefficients with
  | nil => simp [toPoly]
  | cons a t ih =>
    rw [List.foldr_cons, toPoly_cons]
    simp [ih]
    ring

theorem getD_map_range (f : ℕ → F) (n k : ℕ) :
    ((List.range n).map f).getD k 0 = if k < n then f k else 0 := by
  by_cases h : k < n
  · rw [if_pos h, List.getD_eq_getElem _ _ (by simpa using h)]
    simp
  · rw [if_neg h, List.getD_eq_default _ _ (by simpa using h)]

theorem toPoly_add (p q : Toyni.Polynomial F) :
    toPoly (p.add q).coefficients = toPoly p.coefficients + toPoly q.coefficients := by
  ext k
  rw [Polynomial.coeff_add, toPoly_coeff, toPoly_coeff, toPoly_coeff]
  show (Toyni.stripTrailingZeros _).getD k 0 = _
  rw [getD_strip, getD_map_range]
  by_cases h : k < max p.coefficients.length q.coefficients.length
  · rw [if_pos h]
  · rw [if_neg h]
    rw [List.getD_eq_default _ _ (by omega), List.getD_eq_default _ _ (by omega)]
    simp

theorem toPoly_multiply (p q : Toyni.Polynomial F) :
    toPoly (p.multiply q).coefficients = toPoly p.coefficients * toPoly q.coefficients := by
  unfold Toyni.Polynomial.multiply
  by_cases hpq : p.coefficients.isEmpty ∨ q.coefficients.isEmpty
  · rw [if_pos hpq]
    rcases hpq with h | h <;> rw [List.isEmpty_iff] at h <;>
      simp [Toyni.Polynomial.new, Toyni.stripTrailingZeros, h, toPoly_nil]
  · rw [if_neg hpq]
    push_neg at hpq
    obtain ⟨hp0, hq0⟩ := hpq
    have hp : p.coefficients ≠ [] := by simpa [List.isEmpty_iff] using hp0
    have hq : q.coefficients ≠ [] := by simpa [List.isEmpty_iff] using hq0
    have hplen : 0 < p.coefficients.length := List.length_pos.mpr hp
    have hqlen : 0 < q.coefficients.length := List.length_pos.mpr hq
    have hdeg : p.degree + q.degree + 1 = p.coefficients.length + q.coefficients.length - 1 := by
      unfold Toyni.Polynomial.degree
      rw [if_neg (by simpa using hp), if_neg (by simpa using hq)]
      omega
    ext k
    rw [toPoly_coeff, Polynomial.coeff_mul]
    show (Toyni.stripTrailingZeros _).getD k 0 = _
    rw [getD_strip, getD_map_range,
      Finset.Nat.sum_antidiagonal_eq_sum_range_succ_mk]
    simp only [toPoly_coeff]
    by_cases h : k < p.degree + q.degree + 1
    · rw [if_pos h]
    · rw [if_neg h]
      symm
      apply Finset.sum_eq_zero
      intro i hi
      rw [Finset.mem_range] at hi
      by_cases hip : i < p.coefficients.length
      · have : q.coefficients.length ≤ k - i := by omega
        rw [List.getD_eq_default _ _ this, mul_zero]
      · rw [List.getD_eq_default _ _ (by omega), zero_mul]

theorem toPoly_zero : toPoly (Toyni.Polynomial.zero : Toyni.Polynomial F).coefficients = 0 := by
  show toPoly (Toyni.stripTrailingZeros [(0 : F)]) = 0
  rw [toPoly_strip]
  simp [toPoly_cons, toPoly_nil]

theorem toPoly_of_isZero {p : Toyni.Polynomial F} (h : p.isZero = true) :
    toPoly p.coefficients = 0 := by
  ext k
  rw [toPoly_coeff]
  unfold Toyni.Polynomial.isZero at h
  rw [List.all_eq_true] at h
  by_cases hk : k < p.coefficients.length
  · rw [List.getD_eq_getElem _ _ hk]
    have := h _ (List.getElem_mem hk)
    simpa using this
  · rw [List.getD_eq_default _ _ (by omega)]
    simp

theorem evaluate_add (p q : Toyni.Polynomial F) (x : F) :
    (p.add q).evaluate x = p.evaluate x + q.evaluate x := by
  rw [evaluate_eq_eval, evaluate_eq_eval, evaluate_eq_eval, toPoly_add, Polynomial.eval_add]

theorem evaluate_multiply (p q : Toyni.Polynomial F) (x : F) :
    (p.multiply q).evaluate x = p.evaluate x * q.evaluate x := by
  rw [evaluate_eq_eval, evaluate_eq_eval, evaluate_eq_eval, toPoly_multiply, Polynomial.eval_mul]

theorem evaluate_of_isZero {p : Toyni.Polynomial F} (h : p.isZero = true) (x : F) :
    p.evaluate x = 0 := by
  rw [evaluate_eq_eval, toPoly_of_isZero h]
  simp

/-- The coefficient list of the vanishing polynomial `x^n − 1` for `n ≥ 1`
survives stripping: it ends in `1`. -/
theorem vanishing_coefficients {n : ℕ} (hn : 0 < n) :
    (Toyni.vanishingPolynomial n : Toyni.Polynomial F).coefficients
      = (List.range (n + 1)).map (fun i => (if i = n then (1 : F) else 0) + (if i = 0 then -1 else 0)) := by
  show Toyni.stripTrailingZeros _ = _
  apply strip_of_noTrailingZeros
  unfold Toyni.NoTrailingZeros
  rw [getLast?_eq_getD (by simp), List.length_map, List.length_range]
  rw [getD_map_range]
  rw [if_pos (by omega)]
  rw [if_pos (by omega), if_neg (by omega)]
  intro hcon
  rw [Option.some_inj] at hcon
  simp at hcon

theorem toPoly_vanishing {n : ℕ} (hn : 0 < n) :
    toPoly (Toyni.vanishingPolynomial n : Toyni.Polynomial F).coefficients
      = Polynomial.X ^ n - Polynomial.C 1 := by
  rw [vanishing_coefficients hn]
  ext k
  rw [toPoly_coeff, getD_map_range]
  rw [Polynomial.coeff_sub, Polynomial.coeff_X_pow, Polynomial.coeff_C]
  by_cases h : k < n + 1
  · rw [if_pos h]
    split_ifs <;> ring
  · rw [if_neg h, if_neg (by omega), if_neg (by omega)]
    simp

theorem evaluate_vanishing {n : ℕ} (hn : 0 < n) (x : F) :
    (Toyni.vanishingPolynomial n : Toyni.Polynomial F).evaluate x = x ^ n - 1 := by
  rw [evaluate_eq_eval, toPoly_vanishing hn]
  simp

theorem vanishing_not_zeroish {n : ℕ} (hn : 0 < n) :
    ¬ ((Toyni.vanishingPolynomial n : Toyni.Polynomial F).coefficients.isEmpty
        ∨ (Toyni.vanishingPolynomial n : Toyni.Polynomial F).leadingCoefficient = 0) := by
  have hco := vanishing_coefficients (F := F) hn
  intro hcon
  rcases hcon with h | h
  · rw [List.isEmpty_iff, hco] at h
    simpa using congrArg List.length h
  · unfold Toyni.Polynomial.leadingCoefficient at h
    rw [hco, getLast?_eq_getD (by simp), List.length_map, List.length_range,
      getD_map_range, if_pos (by omega), if_pos (by omega), if_neg (by omega)] at h
    simp at h

theorem vanishing_degree {n : ℕ} (hn : 0 < n) :
    (Toyni.vanishingPolynomial n : Toyni.Polynomial F).degree = n := by
  unfold Toyni.Polynomial.degree
  rw [vanishing_coefficients hn]
  rw [if_neg (by simp)]
  simp

theorem getD_set_self {l : List F} {t : ℕ} (h : t < l.length) (v : F) :
    (l.set t v).getD t 0 = v := by
  rw [List.getD_eq_getElem _ _ (by simpa using h)]
  simp [List.getElem_set, h]

theorem getD_set_ne {l : List F} {t k : ℕ} (h : t ≠ k) (v : F) :
    (l.set t v).getD k 0 = l.getD k 0 := by
  by_cases hk : k < l.length
  · rw [List.getD_eq_getElem _ _ (by simpa using hk), List.getD_eq_getElem _ _ hk]
    simp [List.getElem_set, h]
  · rw [List.getD_eq_default _ _ (by simpa using hk), List.getD_eq_default _ _ (by omega)]

theorem getD_replicate_zero (n k : ℕ) : (List.replicate n (0 : F)).getD k 0 = 0 := by
  by_cases hk : k < n
  · rw [List.getD_eq_getElem _ _ (by simpa using hk)]
    simp
  · rw [List.getD_eq_default _ _ (by simpa using hk)]

theorem toPoly_replicate_zero (n : ℕ) : toPoly (List.replicate n (0 : F)) = 0 := by
  ext k
  rw [toPoly_coeff, getD_replicate_zero]
  simp

theorem toPoly_set {l : List F} {t : ℕ} (h : t < l.length) (v : F) :
    toPoly (l.set t v) = toPoly l + Polynomial.C (v - l.getD t 0) * Polynomial.X ^ t := by
  ext k
  rw [Polynomial.coeff_add, toPoly_coeff, toPoly_coeff, Polynomial.coeff_C_mul,
    Polynomial.coeff_X_pow]
  by_cases hk : k = t
  · subst hk
    rw [getD_set_self h, if_pos rfl]
    ring
  · rw [getD_set_ne (fun he => hk he.symm), if_neg (fun he => hk he)]
    ring

theorem toPoly_eq_sum (l : List F) :
    toPoly l = ∑ j ∈ Finset.range l.length, Polynomial.C (l.getD j 0) * Polynomial.X ^ j := by
  ext k
  rw [toPoly_coeff, Polynomial.finset_sum_coeff]
  simp only [Polynomial.coeff_C_mul, Polynomial.coeff_X_pow, mul_ite, mul_one, mul_zero]
  rw [Finset.sum_ite_eq (Finset.range l.length) k (fun j => l.getD j 0)]
  by_cases hk : k < l.length
  · rw [if_pos (Finset.mem_range.mpr hk)]
  · rw [if_neg (fun hc => hk (Finset.mem_range.mp hc)),
      List.getD_eq_default _ _ (by omega)]

theorem subFold_length (dco : List F) (qi : F) (i n : ℕ) (r : List F) :
    ((List.range n).foldl
      (fun r j => r.set (i + j) (r.getD (i + j) 0 - qi * dco.getD j 0)) r).length
      = r.length := by
  induction n with
  | zero => rfl
  | succ n ih =>
    rw [List.range_succ, List.foldl_append, List.foldl_cons, List.foldl_nil,
      List.length_set, ih]

theorem subFold_getD (dco : List F) (qi : F) (i n : ℕ) (r : List F) (k : ℕ) :
    ((List.range n).foldl
      (fun r j => r.set (i + j) (r.getD (i + j) 0 - qi * dco.getD j 0)) r).getD k 0
      = if i ≤ k ∧ k < i + n ∧ k < r.length
        then r.getD k 0 - qi * dco.getD (k - i) 0 else r.getD k 0 := by
  induction n with
  | zero =>
    rw [if_neg (by omega)]
    rfl
  | succ n ih =>
    rw [List.range_succ, List.foldl_append, List.foldl_cons, List.foldl_nil]
    have hlen := subFold_length dco qi i n r
    by_cases hk : k = i + n
    · subst hk
      by_cases hr : i + n < r.length
      · have hb : i + n < ((List.range n).foldl
            (fun r j => r.set (i + j) (r.getD (i + j) 0 - qi * dco.getD j 0)) r).length := by
          rw [hlen]; omega
        rw [getD_set_self hb _, ih,
          if_neg (show ¬ (i ≤ i + n ∧ i + n < i + n ∧ i + n < r.length) by omega),
          if_pos (show i ≤ i + n ∧ i + n < i + (n + 1) ∧ i + n < r.length from
            ⟨by omega, by omega, hr⟩)]
        rw [show i + n - i = n by omega]
      · rw [List.set_eq_of_length_le (by rw [hlen]; omega), ih,
          if_neg (show ¬ (i ≤ i + n ∧ i + n < i + n ∧ i + n < r.length) by omega),
          if_neg (show ¬ (i ≤ i + n ∧ i + n < i + (n + 1) ∧ i + n < r.length) by omega)]
    · rw [getD_set_ne (fun he => hk he.symm), ih]
      by_cases hc : i ≤ k ∧ k < i + n ∧ k < r.length
      · rw [if_pos hc, if_pos (show i ≤ k ∧ k < i + (n + 1) ∧ k < r.length from
          ⟨hc.1, by omega, hc.2.2⟩)]
      · rw [if_neg hc,
          if_neg (show ¬ (i ≤ k ∧ k < i + (n + 1) ∧ k < r.length) by omega)]

theorem subFold_toPoly (dco : List F) (qi : F) (i n : ℕ) (r : List F)
    (hn : i + n ≤ r.length) :
    toPoly ((List.range n).foldl
      (fun r j => r.set (i + j) (r.getD (i + j) 0 - qi * dco.getD j 0)) r)
      = toPoly r - Polynomial.C qi *
          ∑ j ∈ Finset.range n, Polynomial.C (dco.getD j 0) * Polynomial.X ^ (i + j) := by
  induction n with
  | zero => simp
  | succ n ih =>
    rw [List.range_succ, List.foldl_append, List.foldl_cons, List.foldl_nil]
    have hlen := subFold_length dco qi i n r
    have hb : i + n < ((List.range n).foldl
        (fun r j => r.set (i + j) (r.getD (i + j) 0 - qi * dco.getD j 0)) r).length := by
      rw [hlen]; omega
    rw [toPoly_set hb _, ih (by omega), Finset.sum_range_succ]
    have hsame : ((List.range n).foldl
        (fun r j => r.set (i + j) (r.getD (i + j) 0 - qi * dco.getD j 0)) r).getD (i + n) 0
        = r.getD (i + n) 0 := by
      rw [subFold_getD, if_neg (by omega)]
    rw [hsame, Polynomial.C_sub, Polynomial.C_sub, Polynomial.C_mul]
    ring

/-- The `subLoop` of the divider subtracts `qi · X^i · D` from the running
remainder (as polynomials), when the touched positions are in range. -/
theorem subLoop_toPoly (dco : List F) (qi : F) (i dv : ℕ) (r : List F)
    (hn : i + dv + 1 ≤ r.length) (hco : dco.length = dv + 1) :
    toPoly (Toyni.subLoop dco qi i dv r)
      = toPoly r - Polynomial.C qi * Polynomial.X ^ i * toPoly dco := by
  unfold Toyni.subLoop
  rw [subFold_toPoly dco qi i (dv + 1) r (by omega)]
  congr 1
  rw [toPoly_eq_sum dco, hco, Finset.mul_sum, Finset.mul_sum]
  apply Finset.sum_congr rfl
  intro j _
  rw [pow_add]
  ring

theorem subLoop_length (dco : List F) (qi : F) (i dv : ℕ) (r : List F) :
    (Toyni.subLoop dco qi i dv r).length = r.length :=
  subFold_length dco qi i (dv + 1) r

theorem subLoop_getD (dco : List F) (qi : F) (i dv : ℕ) (r : List F) (k : ℕ) :
    (Toyni.subLoop dco qi i dv r).getD k 0
      = if i ≤ k ∧ k < i + (dv + 1) ∧ k < r.length
        then r.getD k 0 - qi * dco.getD (k - i) 0 else r.getD k 0 :=
  subFold_getD dco qi i (dv + 1) r k

/-- Invariant of the descending division loop: it preserves the identity
`Q·D + R = const`, keeps the remainder length fixed, and zeroes every
remainder position from the divisor degree upwards. -/
theorem divLoop_spec (dco : List F) (dlc : F) (dv : ℕ)
    (hdco : dco.length = dv + 1) (hdlc : dlc ≠ 0) (hlast : dco.getD dv 0 = dlc) (L : ℕ) :
    ∀ (m : ℕ) (q r : List F),
      r.length = L → m + dv ≤ L → m ≤ q.length →
      (∀ k, k < m → q.getD k 0 = 0) →
      (∀ k, m + dv ≤ k → r.getD k 0 = 0) →
      toPoly (Toyni.divLoop dco dlc dv m (q, r)).1 * toPoly dco
          + toPoly (Toyni.divLoop dco dlc dv m (q, r)).2
          = toPoly q * toPoly dco + toPoly r
        ∧ (Toyni.divLoop dco dlc dv m (q, r)).2.length = L
        ∧ (∀ k, dv ≤ k → (Toyni.divLoop dco dlc dv m (q, r)).2.getD k 0 = 0) := by
  intro m
  induction m with
  | zero =>
    intro q r hr _hm _hq _hqz hrz
    exact ⟨rfl, hr, fun k hk => hrz k (by omega)⟩
  | succ m ih =>
    intro q r hr hm hq hqz hrz
    by_cases hlc : r.getD (m + dv) 0 = 0
    · have hstep : Toyni.divStep dco dlc dv m (q, r) = (q, r) := by
        unfold Toyni.divStep
        rw [if_pos hlc]
      rw [Toyni.divLoop, hstep]
      refine ih q r hr (by omega) (by omega) (fun k hk => hqz k (by omega)) ?_
      intro k hk
      rcases Nat.eq_or_lt_of_le hk with heq | hlt
      · rw [← heq]
        exact hlc
      · exact hrz k (by omega)
    · have hstep : Toyni.divStep dco dlc dv m (q, r)
          = (q.set m (r.getD (m + dv) 0 / dlc),
             Toyni.subLoop dco (r.getD (m + dv) 0 / dlc) m dv r) := by
        unfold Toyni.divStep
        rw [if_neg hlc]
      rw [Toyni.divLoop, hstep]
      have hq' : ∀ k, k < m → (q.set m (r.getD (m + dv) 0 / dlc)).getD k 0 = 0 := by
        intro k hk
        rw [getD_set_ne (by omega)]
        exact hqz k (by omega)
      have hr' : ∀ k, m + dv ≤ k →
          (Toyni.subLoop dco (r.getD (m + dv) 0 / dlc) m dv r).getD k 0 = 0 := by
        intro k hk
        rw [subLoop_getD]
        rcases Nat.eq_or_lt_of_le hk with heq | hlt
        · rw [if_pos (show m ≤ k ∧ k < m + (dv + 1) ∧ k < r.length by omega), ← heq,
            show m + dv - m = dv by omega, hlast, div_mul_cancel₀ _ hdlc]
          ring
        · rw [if_neg (by omega)]
          exact hrz k (by omega)
      obtain ⟨heq, hlen2, hzero2⟩ :=
        ih (q.set m (r.getD (m + dv) 0 / dlc))
          (Toyni.subLoop dco (r.getD (m + dv) 0 / dlc) m dv r)
          (by rw [subLoop_length]; exact hr) (by omega)
          (by rw [List.length_set]; omega) hq' hr'
      refine ⟨?_, hlen2, hzero2⟩
      rw [heq]
      have hset : toPoly (q.set m (r.getD (m + dv) 0 / dlc))
          = toPoly q + Polynomial.C (r.getD (m + dv) 0 / dlc - q.getD m 0)
              * Polynomial.X ^ m :=
        toPoly_set (by omega) _
      rw [hset, subLoop_toPoly dco _ m dv r (by omega) hdco, hqz m (by omega), sub_zero]
      ring

/-- The length of a stripped list is bounded by any position from which on
the original list is zero. -/
theorem strip_length_le {l : List F} {n : ℕ} (h : ∀ k, n ≤ k → l.getD k 0 = 0) :
    (Toyni.stripTrailingZeros l).length ≤ n := by
  by_contra hcon
  push_neg at hcon
  have hne : Toyni.stripTrailingZeros l ≠ [] := by
    intro hnil
    rw [hnil] at hcon
    simp at hcon
  apply strip_noTrailingZeros l
  rw [getLast?_eq_getD hne, getD_strip, h _ (by omega)]

/-- Full specification of `Polynomial::divide` on a non-zero divisor with
stripped coefficients. -/
theorem divide_spec (p d : Toyni.Polynomial F)
    (hp : Toyni.NoTrailingZeros p.coefficients) (hd : Toyni.NoTrailingZeros d.coefficients)
    (hdne : d.coefficients ≠ [])
    (hpanic : p.coefficients ≠ [] ∨ d.degree ≠ 0) :
    ∃ q r : Toyni.Polynomial F, p.divide d = some (q, r)
      ∧ Toyni.NoTrailingZeros q.coefficients
      ∧ Toyni.NoTrailingZeros r.coefficients
      ∧ toPoly q.coefficients * toPoly d.coefficients + toPoly r.coefficients
          = toPoly p.coefficients
      ∧ r.coefficients.length ≤ d.degree := by
  have hlc : d.leadingCoefficient ≠ 0 := by
    unfold Toyni.Polynomial.leadingCoefficient
    rw [getLast?_eq_getD hdne]
    simp only [Option.getD_some]
    intro hcon
    apply hd
    rw [getLast?_eq_getD hdne, hcon]
  have hguard : ¬ (d.coefficients.isEmpty ∨ d.leadingCoefficient = 0) := by
    rintro (h | h)
    · exact hdne (List.isEmpty_iff.mp h)
    · exact hlc h
  have hdlen : d.coefficients.length = d.degree + 1 := by
    unfold Toyni.Polynomial.degree
    rw [if_neg (by simpa [List.isEmpty_iff] using hdne)]
    have := List.length_pos.mpr hdne
    omega
  unfold Toyni.Polynomial.divide
  rw [if_neg hguard]
  by_cases hdd : p.degree < d.degree
  · rw [if_pos hdd]
    refine ⟨Toyni.Polynomial.zero, p, rfl, ?_, hp, ?_, ?_⟩
    · show Toyni.NoTrailingZeros (Toyni.stripTrailingZeros [(0 : F)])
      exact strip_noTrailingZeros _
    · rw [toPoly_zero, zero_mul, zero_add]
    · by_cases hpe : p.coefficients = []
      · rw [hpe]
        simp
      · have : p.coefficients.length = p.degree + 1 := by
          unfold Toyni.Polynomial.degree
          rw [if_neg (by simpa [List.isEmpty_iff] using hpe)]
          have := List.length_pos.mpr hpe
          omega
        omega
  · rw [if_neg hdd]
    have hpe : p.coefficients ≠ [] := by
      intro hnil
      have hdeg0 : p.degree = 0 := by
        unfold Toyni.Polynomial.degree
        rw [if_pos (by simpa [List.isEmpty_iff] using hnil)]
      rcases hpanic with h | h
      · exact h hnil
      · exact h (by omega)
    rw [if_neg (by simpa [List.isEmpty_iff] using hpe)]
    · have hplen : p.coefficients.length = p.degree + 1 := by
        unfold Toyni.Polynomial.degree
        rw [if_neg (by simpa [List.isEmpty_iff] using hpe)]
        have := List.length_pos.mpr hpe
        omega
      obtain ⟨heq, hlen, hzero⟩ :=
        divLoop_spec d.coefficients d.leadingCoefficient d.degree
          (by omega) hlc
          (by
            unfold Toyni.Polynomial.leadingCoefficient
            rw [getLast?_eq_getD hdne]
            rw [hdlen]
            simp)
          p.coefficients.length
          (p.degree - d.degree + 1)
          (List.replicate (p.degree - d.degree + 1) 0) p.coefficients
          rfl (by omega) (by simp) (fun k _ => getD_replicate_zero _ k)
          (fun k hk => List.getD_eq_default _ _ (by omega))
      refine ⟨_, _, rfl, strip_noTrailingZeros _, strip_noTrailingZeros _, ?_, ?_⟩
      · show toPoly (Toyni.stripTrailingZeros _) * _ + toPoly (Toyni.stripTrailingZeros _) = _
        rw [toPoly_strip, toPoly_strip, heq, toPoly_replicate_zero, zero_mul, zero_add]
      · exact strip_length_le (fun k hk => hzero k hk)

theorem geom_sum_root {x : F} {n : ℕ} (hxn : x ^ n = 1) (hx1 : x ≠ 1) :
    ∑ j ∈ Finset.range n, x ^ j = 0 := by
  rw [geom_sum_eq hx1, hxn, sub_self, zero_div]

/-- Correctness of the inverse DFT: the interpolated polynomial takes the
prescribed value at every domain point `ω^k`, for `ω` a primitive root of
unity of order the vector length. -/
theorem eval_idft (v : List F) (ω : F) (k : ℕ)
    (hk : k < v.length) (hω : ω ^ v.length = 1)
    (hprim : ∀ d, d < v.length → 0 < d → ω ^ d ≠ 1)
    (hncast : ((v.length : ℕ) : F) ≠ 0) :
    (toPoly (Toyni.idft v ω)).eval (ω ^ k) = v.getD k 0 := by
  have hω0 : ω ≠ 0 := by
    intro h0
    rw [h0, zero_pow (by omega)] at hω
    exact zero_ne_one hω
  have hlen : (Toyni.idft v ω).length = v.length := by
    unfold Toyni.idft
    simp
  rw [toPoly_eq_sum, hlen, Polynomial.eval_finset_sum]
  have step1 : (∑ j ∈ Finset.range v.length,
      (Polynomial.C ((Toyni.idft v ω).getD j 0) * Polynomial.X ^ j).eval (ω ^ k))
      = ∑ j ∈ Finset.range v.length, (v.length : F)⁻¹ *
          ∑ i ∈ Finset.range v.length, v.getD i 0 * ((ω⁻¹) ^ i * ω ^ k) ^ j := by
    apply Finset.sum_congr rfl
    intro j hj
    rw [Finset.mem_range] at hj
    rw [Polynomial.eval_mul, Polynomial.eval_pow, Polynomial.eval_C, Polynomial.eval_X]
    unfold Toyni.idft
    rw [getD_map_range, if_pos hj, mul_assoc]
    congr 1
    rw [Finset.sum_mul]
    apply Finset.sum_congr rfl
    intro i _
    rw [mul_pow, pow_mul]
    ring
  rw [step1, ← Finset.mul_sum, Finset.sum_comm]
  have step2 : ∀ i ∈ Finset.range v.length,
      (∑ j ∈ Finset.range v.length, v.getD i 0 * ((ω⁻¹) ^ i * ω ^ k) ^ j)
      = v.getD i 0 * ∑ j ∈ Finset.range v.length, ((ω⁻¹) ^ i * ω ^ k) ^ j :=
    fun i _ => (Finset.mul_sum _ _ _).symm
  rw [Finset.sum_congr rfl step2]
  rw [Finset.sum_eq_single k ?side ?absent]
  case side =>
    intro i hi hik
    rw [Finset.mem_range] at hi
    have hun : ((ω⁻¹) ^ i * ω ^ k) ^ v.length = 1 := by
      rw [mul_pow, pow_right_comm, pow_right_comm ω, inv_pow, hω, inv_one, one_pow,
        one_pow, one_mul]
    have hne1 : (ω⁻¹) ^ i * ω ^ k ≠ 1 := by
      intro hu
      have hcancel : ω ^ i * ((ω⁻¹) ^ i * ω ^ k) = ω ^ i * 1 := by rw [hu]
      rw [← mul_assoc, ← mul_pow, mul_inv_cancel₀ hω0, one_pow, one_mul, mul_one] at hcancel
      rcases Nat.lt_or_ge i k with hlt | hge
      · have hsplit : ω ^ i * ω ^ (k - i) = ω ^ i * 1 := by
          rw [← pow_add, show i + (k - i) = k from by omega, hcancel, mul_one]
        exact hprim (k - i) (by omega) (by omega)
          (mul_left_cancel₀ (pow_ne_zero _ hω0) hsplit)
      · have hki : k < i := by omega
        have hsplit : ω ^ k * ω ^ (i - k) = ω ^ k * 1 := by
          rw [← pow_add, show k + (i - k) = i from by omega, ← hcancel, mul_one]
        exact hprim (i - k) (by omega) (by omega)
          (mul_left_cancel₀ (pow_ne_zero _ hω0) hsplit)
    rw [geom_sum_root hun hne1, mul_zero]
  case absent =>
    intro habs
    exact absurd (Finset.mem_range.mpr hk) habs
  have hone : (ω⁻¹) ^ k * ω ^ k = 1 := by
    rw [← mul_pow, inv_mul_cancel₀ hω0, one_pow]
  rw [hone]
  simp only [one_pow, Finset.sum_const, Finset.card_range, nsmul_eq_mul, mul_one]
  field_simp

theorem setFold_length (f : ℕ → F) (n : ℕ) (v0 : List F) :
    ((List.range n).foldl (fun v i => v.set i (f i)) v0).length = v0.length := by
  induction n with
  | zero => rfl
  | succ n ih =>
    rw [List.range_succ, List.foldl_append, List.foldl_cons, List.foldl_nil,
      List.length_set, ih]

theorem setFold_getD (f : ℕ → F) (n : ℕ) (v0 : List F) (k : ℕ) :
    ((List.range n).foldl (fun v i => v.set i (f i)) v0).getD k 0
      = if k < n ∧ k < v0.length then f k else v0.getD k 0 := by
  induction n with
  | zero =>
    rw [if_neg (by omega)]
    rfl
  | succ n ih =>
    rw [List.range_succ, List.foldl_append, List.foldl_cons, List.foldl_nil]
    have hlen := setFold_length f n v0
    by_cases hk : k = n
    · subst hk
      by_cases hr : k < v0.length
      · have hb : k < ((List.range k).foldl (fun v i => v.set i (f i)) v0).length := by
          rw [hlen]; omega
        rw [getD_set_self hb _, if_pos (by omega)]
      · rw [List.set_eq_of_length_le (by rw [hlen]; omega), ih,
          if_neg (by omega), if_neg (by omega)]
    · rw [getD_set_ne (fun he => hk he.symm), ih]
      by_cases hc : k < n ∧ k < v0.length
      · rw [if_pos hc, if_pos (by omega)]
      · rw [if_neg hc, if_neg (by omega)]

end Semantics

section EvalVectors

variable {F : Type} [Field F] [DecidableEq F] {R : Type} [Inhabited R]

theorem transitionEvals_length (t : Toyni.ExecutionTrace R) (c : Toyni.TransitionConstraint R F) :
    (Toyni.transitionEvals t c).length = t.height := by
  unfold Toyni.transitionEvals
  rw [setFold_length, List.length_replicate]

theorem transitionEvals_getD (t : Toyni.ExecutionTrace R) (c : Toyni.TransitionConstraint R F)
    (i : ℕ) :
    (Toyni.transitionEvals t c).getD i 0
      = if i < t.height - 1 then c.evaluate (t.getColumn i) (t.getColumn (i + 1)) else 0 := by
  unfold Toyni.transitionEvals
  rw [setFold_getD, List.length_replicate]
  by_cases h : i < t.height - 1
  · rw [if_pos ⟨h, by omega⟩, if_pos h]
  · rw [if_neg (by omega), if_neg h, getD_replicate_zero]

theorem boundaryEvals_length (t : Toyni.ExecutionTrace R) (c : Toyni.BoundaryConstraint R F) :
    (Toyni.boundaryEvals t c).length = t.height := by
  unfold Toyni.boundaryEvals
  rw [List.length_set, List.length_replicate]

theorem boundaryEvals_getD (t : Toyni.ExecutionTrace R) (c : Toyni.BoundaryConstraint R F)
    (i : ℕ) :
    (Toyni.boundaryEvals t c).getD i 0
      = if i = c.row ∧ c.row < t.height then c.evaluate (t.getColumn c.row) else 0 := by
  unfold Toyni.boundaryEvals
  by_cases hrow : c.row < t.height
  · by_cases hi : i = c.row
    · subst hi
      rw [getD_set_self (by simpa using hrow) _, if_pos ⟨rfl, hrow⟩]
    · rw [getD_set_ne (fun he => hi he.symm), if_neg (by tauto), getD_replicate_zero]
  · rw [List.set_eq_of_length_le (by simp; omega), if_neg (by tauto), getD_replicate_zero]

/-- A list that is zero at every position strips to the empty list. -/
theorem strip_eq_nil_of_zero {l : List F} (h : ∀ k, l.getD k 0 = 0) :
    Toyni.stripTrailingZeros l = [] := by
  have := strip_length_le (l := l) (n := 0) (fun k _ => h k)
  exact List.eq_nil_of_length_eq_zero (by omega)

/-- Interpolating an all-zero evaluation vector yields the canonical zero
polynomial. -/
theorem new_idft_of_zero (v : List F) (ω : F) (h : ∀ k, v.getD k 0 = 0) :
    Toyni.Polynomial.new (Toyni.idft v ω) = (⟨[]⟩ : Toyni.Polynomial F) := by
  unfold Toyni.Polynomial.new
  congr 1
  apply strip_eq_nil_of_zero
  intro k
  unfold Toyni.idft
  rw [getD_map_range]
  by_cases hk : k < v.length
  · rw [if_pos hk]
    have : ∀ i ∈ Finset.range v.length, v.getD i 0 * (ω⁻¹) ^ (i * k) = 0 := by
      intro i _
      rw [h i, zero_mul]
    rw [Finset.sum_congr rfl this, Finset.sum_const, smul_zero, mul_zero]
  · rw [if_neg hk]

theorem vanishing_noTrailingZeros {n : ℕ} (hn : 0 < n) :
    Toyni.NoTrailingZeros (Toyni.vanishingPolynomial n : Toyni.Polynomial F).coefficients := by
  have hco := vanishing_coefficients (F := F) hn
  unfold Toyni.NoTrailingZeros
  rw [hco, getLast?_eq_getD (by simp), List.length_map, List.length_range, getD_map_range,
    if_pos (by omega), if_pos (by omega), if_neg (by omega)]
  intro hcon
  rw [Option.some_inj] at hcon
  simp at hcon

theorem vanishing_ne_nil {n : ℕ} (hn : 0 < n) :
    (Toyni.vanishingPolynomial n : Toyni.Polynomial F).coefficients ≠ [] := by
  rw [vanishing_coefficients hn]
  simp

/-- Dividing the canonical zero polynomial by the vanishing polynomial
returns quotient `zero` and zero remainder. -/
theorem divide_nil_vanishing {H : ℕ} (hH : 0 < H) :
    (⟨[]⟩ : Toyni.Polynomial F).divide (Toyni.vanishingPolynomial H)
      = some (Toyni.Polynomial.zero, ⟨[]⟩) := by
  unfold Toyni.Polynomial.divide
  rw [if_neg (vanishing_not_zeroish hH)]
  rw [if_pos]
  show Toyni.Polynomial.degree ⟨[]⟩ < (Toyni.vanishingPolynomial H : Toyni.Polynomial F).degree
  rw [vanishing_degree hH]
  show (if ([] : List F).isEmpty then 0 else ([] : List F).length - 1) < H
  rw [if_pos List.isEmpty_nil]
  omega

/-- A polynomial that divides by `x^H − 1` with zero remainder vanishes at
every `H`-th root of unity. -/
theorem evaluate_zero_of_divide {p : Toyni.Polynomial F} {H : ℕ} (hH : 0 < H)
    {q r : Toyni.Polynomial F}
    (hdiv : p.divide (Toyni.vanishingPolynomial H) = some (q, r)) (hr : r.isZero = true)
    (hp : Toyni.NoTrailingZeros p.coefficients) (x : F) (hx : x ^ H = 1) :
    p.evaluate x = 0 := by
  obtain ⟨q', r', hsome, _, _, hpoly, _⟩ :=
    divide_spec p (Toyni.vanishingPolynomial H) hp (vanishing_noTrailingZeros hH)
      (vanishing_ne_nil hH)
      (Or.inr (by rw [vanishing_degree hH]; omega))
  rw [hdiv] at hsome
  obtain ⟨hq, hr'⟩ : q' = q ∧ r' = r := by
    have := Option.some_inj.mp hsome
    exact ⟨congrArg Prod.fst this.symm, congrArg Prod.snd this.symm⟩
  subst hq hr'
  rw [evaluate_eq_eval, ← hpoly]
  rw [Polynomial.eval_add, Polynomial.eval_mul]
  rw [← evaluate_eq_eval, ← evaluate_eq_eval, ← evaluate_eq_eval]
  rw [evaluate_vanishing hH, hx, sub_self, mul_zero, zero_add, evaluate_of_isZero hr]

/-- Logical characterisation of `is_satisfied`: all transition constraints
vanish on every consecutive row pair and all boundary constraints vanish
at their rows. -/
theorem isSatisfied_iff (cs : Toyni.ConstraintSystem R F) (t : Toyni.ExecutionTrace R) :
    cs.isSatisfied t = true ↔
      (∀ i, i < t.height - 1 → ∀ c ∈ cs.transition_constraints,
        c.evaluate (t.getColumn i) (t.getColumn (i + 1)) = 0)
      ∧ (∀ c ∈ cs.boundary_constraints, c.evaluate (t.getColumn c.row) = 0) := by
  simp only [Toyni.ConstraintSystem.isSatisfied, Toyni.ConstraintSystem.evaluate,
    List.all_append, Bool.and_eq_true, List.all_eq_true, List.mem_flatten, List.mem_map,
    List.mem_range, decide_eq_true_eq]
  constructor
  · rintro ⟨h1, h2⟩
    refine ⟨?_, ?_⟩
    · intro i hi c hc
      exact h1 _ ⟨_, ⟨i, hi, rfl⟩, List.mem_map_of_mem _ hc⟩
    · intro c hc
      exact h2 _ ⟨c, hc, rfl⟩
  · rintro ⟨h1, h2⟩
    refine ⟨?_, ?_⟩
    · rintro x ⟨l, ⟨i, hi, rfl⟩, hx⟩
      obtain ⟨c, hc, rfl⟩ := List.mem_map.mp hx
      exact h1 i hi c hc
    · rintro x ⟨c, hc, rfl⟩
      exact h2 c hc

theorem evaluate_interpTrans (ω : F) (t : Toyni.ExecutionTrace R)
    (c : Toyni.TransitionConstraint R F) (k : ℕ) (hk : k < t.height)
    (hω : ω ^ t.height = 1) (hprim : ∀ d, d < t.height → 0 < d → ω ^ d ≠ 1)
    (hn : ((t.height : ℕ) : F) ≠ 0) :
    (Toyni.ConstraintSystem.interpolateTransitionConstraint ω t c).evaluate (ω ^ k)
      = (Toyni.transitionEvals t c).getD k 0 := by
  unfold Toyni.ConstraintSystem.interpolateTransitionConstraint
  rw [evaluate_eq_eval]
  show (toPoly (Toyni.stripTrailingZeros _)).eval _ = _
  rw [toPoly_strip]
  exact eval_idft _ ω k (by rw [transitionEvals_length]; omega)
    (by rw [transitionEvals_length]; exact hω)
    (by rw [transitionEvals_length]; exact hprim)
    (by rw [transitionEvals_length]; exact hn)

theorem evaluate_interpBound (ω : F) (t : Toyni.ExecutionTrace R)
    (c : Toyni.BoundaryConstraint R F) (k : ℕ) (hk : k < t.height)
    (hω : ω ^ t.height = 1) (hprim : ∀ d, d < t.height → 0 < d → ω ^ d ≠ 1)
    (hn : ((t.height : ℕ) : F) ≠ 0) :
    (Toyni.ConstraintSystem.interpolateBoundaryConstraint ω t c).evaluate (ω ^ k)
      = (Toyni.boundaryEvals t c).getD k 0 := by
  unfold Toyni.ConstraintSystem.interpolateBoundaryConstraint
  rw [evaluate_eq_eval]
  show (toPoly (Toyni.stripTrailingZeros _)).eval _ = _
  rw [toPoly_strip]
  exact eval_idft _ ω k (by rw [boundaryEvals_length]; omega)
    (by rw [boundaryEvals_length]; exact hω)
    (by rw [boundaryEvals_length]; exact hprim)
    (by rw [boundaryEvals_length]; exact hn)

end EvalVectors

section ClaimC2

variable {F : Type} [Field F] [DecidableEq F] {R : Type} [Inhabited R]

/-- C2: for every trace `T` whose height `H` carries a primitive `H`-th
root of unity `ω` with `H ≠ 0` in `F` (the power-of-two trace heights of
the source), and every constraint system whose boundary rows are in range,
`is_satisfied(T)` returns true if and only if every polynomial produced by
`interpolate_all_constraints(T)` leaves a zero remainder when divided by
the vanishing polynomial `Z_H(x) = x^H − 1`. -/
theorem C2_isSatisfied_iff_divisible (t : Toyni.ExecutionTrace R)
    (cs : Toyni.ConstraintSystem R F) (ω : F)
    (hω : ω ^ t.height = 1)
    (hprim : ∀ d, d < t.height → 0 < d → ω ^ d ≠ 1)
    (hn : ((t.height : ℕ) : F) ≠ 0)
    (hb : ∀ c ∈ cs.boundary_constraints, c.row < t.height) :
    cs.isSatisfied t = true ↔
      ∀ poly ∈ cs.interpolateAllConstraints ω t,
        (poly.divide (Toyni.vanishingPolynomial t.height)).map (fun qr => qr.2.isZero)
          = some true := by
  have hH : 0 < t.height := by
    rcases Nat.eq_zero_or_pos t.height with h0 | h
    · rw [h0] at hn
      simp at hn
    · exact h
  rw [isSatisfied_iff]
  constructor
  · rintro ⟨h1, h2⟩ poly hmem
    rw [Toyni.ConstraintSystem.interpolateAllConstraints, List.mem_append] at hmem
    rcases hmem with hmem | hmem
    · obtain ⟨c, hc, rfl⟩ := List.mem_map.mp hmem
      have hz : ∀ k, (Toyni.transitionEvals t c).getD k 0 = 0 := by
        intro k
        rw [transitionEvals_getD]
        by_cases hk : k < t.height - 1
        · rw [if_pos hk]
          exact h1 k hk c hc
        · rw [if_neg hk]
      show ((Toyni.ConstraintSystem.interpolateTransitionConstraint ω t c).divide _).map _ = _
      unfold Toyni.ConstraintSystem.interpolateTransitionConstraint
      rw [new_idft_of_zero _ _ hz, divide_nil_vanishing hH]
      rfl
    · obtain ⟨c, hc, rfl⟩ := List.mem_map.mp hmem
      have hz : ∀ k, (Toyni.boundaryEvals t c).getD k 0 = 0 := by
        intro k
        rw [boundaryEvals_getD]
        by_cases hk : k = c.row ∧ c.row < t.height
        · rw [if_pos hk]
          exact h2 c hc
        · rw [if_neg hk]
      show ((Toyni.ConstraintSystem.interpolateBoundaryConstraint ω t c).divide _).map _ = _
      unfold Toyni.ConstraintSystem.interpolateBoundaryConstraint
      rw [new_idft_of_zero _ _ hz, divide_nil_vanishing hH]
      rfl
  · intro hall
    constructor
    · intro i hi c hc
      have hmem : Toyni.ConstraintSystem.interpolateTransitionConstraint ω t c
          ∈ cs.interpolateAllConstraints ω t := by
        rw [Toyni.ConstraintSystem.interpolateAllConstraints, List.mem_append]
        exact Or.inl (List.mem_map_of_mem _ hc)
      have hdv := hall _ hmem
      cases hdiv : (Toyni.ConstraintSystem.interpolateTransitionConstraint ω t c).divide
          (Toyni.vanishingPolynomial t.height) with
      | none =>
        rw [hdiv] at hdv
        simp at hdv
      | some qr =>
        obtain ⟨q, r⟩ := qr
        rw [hdiv] at hdv
        simp only [Option.map_some', Option.some_inj] at hdv
        have hvan : (ω ^ i) ^ t.height = 1 := by
          rw [pow_right_comm, hω, one_pow]
        have heval0 :
            (Toyni.ConstraintSystem.interpolateTransitionConstraint ω t c).evaluate (ω ^ i)
              = 0 :=
          evaluate_zero_of_divide hH hdiv hdv (strip_noTrailingZeros _) _ hvan
        rw [evaluate_interpTrans ω t c i (by omega) hω hprim hn, transitionEvals_getD,
          if_pos hi] at heval0
        exact heval0
    · intro c hc
      have hmem : Toyni.ConstraintSystem.interpolateBoundaryConstraint ω t c
          ∈ cs.interpolateAllConstraints ω t := by
        rw [Toyni.ConstraintSystem.interpolateAllConstraints, List.mem_append]
        exact Or.inr (List.mem_map_of_mem _ hc)
      have hdv := hall _ hmem
      cases hdiv : (Toyni.ConstraintSystem.interpolateBoundaryConstraint ω t c).divide
          (Toyni.vanishingPolynomial t.height) with
      | none =>
        rw [hdiv] at hdv
        simp at hdv
      | some qr =>
        obtain ⟨q, r⟩ := qr
        rw [hdiv] at hdv
        simp only [Option.map_some', Option.some_inj] at hdv
        have hvan : (ω ^ c.row) ^ t.height = 1 := by
          rw [pow_right_comm, hω, one_pow]
        have heval0 :
            (Toyni.ConstraintSystem.interpolateBoundaryConstraint ω t c).evaluate (ω ^ c.row)
              = 0 :=
          evaluate_zero_of_divide hH hdiv hdv (strip_noTrailingZeros _) _ hvan
        rw [evaluate_interpBound ω t c c.row (hb c hc) hω hprim hn, boundaryEvals_getD,
          if_pos ⟨rfl, hb c hc⟩] at heval0
        exact heval0

/-- Witness for C2 at a concrete satisfied instance over `Fin 5`
(height 2, `ω = 4 = −1` a primitive square root of unity). -/
theorem C2_isSatisfied_iff_divisible_witness :
    ((4 : Fin 5) ^ wTrace.height = 1)
    ∧ (∀ d, d < wTrace.height → 0 < d → (4 : Fin 5) ^ d ≠ 1)
    ∧ ((wTrace.height : Fin 5) ≠ 0)
    ∧ (∀ c ∈ wCS.boundary_constraints, c.row < wTrace.height)
    ∧ (wCS.isSatisfied wTrace = true ↔
        ∀ poly ∈ wCS.interpolateAllConstraints 4 wTrace,
          (poly.divide (Toyni.vanishingPolynomial wTrace.height)).map (fun qr => qr.2.isZero)
            = some true) :=
  ⟨by decide, by decide, by decide, by decide,
    C2_isSatisfied_iff_divisible wTrace wCS 4 (by decide) (by decide) (by decide) (by decide)⟩

end ClaimC2

section ClaimC3

variable {F : Type} [Field F] [DecidableEq F] {R : Type} [Inhabited R]

/-- C3: the evaluation vector interpolated for a transition constraint has
`v[i] = f(T[i], T[i+1])` for every `i < H − 1` and `v[H−1] = 0` (never
`f(T[H−1], T[0])`); the vector for a boundary constraint at row `r < H`
has `v[r] = f(T[r])` and zero at every other index. -/
theorem C3_evaluation_vectors (t : Toyni.ExecutionTrace R)
    (ct : Toyni.TransitionConstraint R F) (cb : Toyni.BoundaryConstraint R F)
    (_hH : 0 < t.height) (hr : cb.row < t.height) :
    (∀ i, i < t.height - 1 →
      (Toyni.transitionEvals t ct).getD i 0
        = ct.evaluate (t.getColumn i) (t.getColumn (i + 1)))
    ∧ (Toyni.transitionEvals t ct).getD (t.height - 1) 0 = 0
    ∧ (Toyni.boundaryEvals t cb).getD cb.row 0 = cb.evaluate (t.getColumn cb.row)
    ∧ (∀ i, i < t.height → i ≠ cb.row → (Toyni.boundaryEvals t cb).getD i 0 = 0) := by
  refine ⟨?_, ?_, ?_, ?_⟩
  · intro i hi
    rw [transitionEvals_getD, if_pos hi]
  · rw [transitionEvals_getD, if_neg (by omega)]
  · rw [boundaryEvals_getD, if_pos ⟨rfl, hr⟩]
  · intro i _ hne
    rw [boundaryEvals_getD, if_neg (by tauto)]

/-- Witness for C3 at the concrete `Fin 5` instance. -/
theorem C3_evaluation_vectors_witness :
    (0 < wTrace.height) ∧ (wStart.row < wTrace.height)
    ∧ ((∀ i, i < wTrace.height - 1 →
        (Toyni.transitionEvals wTrace wIncr).getD i 0
          = wIncr.evaluate (wTrace.getColumn i) (wTrace.getColumn (i + 1)))
      ∧ (Toyni.transitionEvals wTrace wIncr).getD (wTrace.height - 1) 0 = 0
      ∧ (Toyni.boundaryEvals wTrace wStart).getD wStart.row 0
          = wStart.evaluate (wTrace.getColumn wStart.row)
      ∧ (∀ i, i < wTrace.height → i ≠ wStart.row →
          (Toyni.boundaryEvals wTrace wStart).getD i 0 = 0)) :=
  ⟨by decide, by decide,
    C3_evaluation_vectors wTrace wIncr wStart (by decide) (by decide)⟩

end ClaimC3

section ClaimC4

variable {F : Type} [Field F] [DecidableEq F]

theorem polyExt {p q : Toyni.Polynomial F} (h : p.coefficients = q.coefficients) : p = q := by
  cases p
  cases q
  cases h
  rfl

theorem isZero_iff_nil {d : Toyni.Polynomial F} (hd : Toyni.NoTrailingZeros d.coefficients) :
    d.isZero = true ↔ d.coefficients = [] := by
  unfold Toyni.Polynomial.isZero
  rw [List.all_eq_true]
  constructor
  · intro h
    by_contra hne
    apply hd
    rw [getLast?_eq_getD hne]
    have hlen : d.coefficients.length - 1 < d.coefficients.length := by
      have := List.length_pos.mpr hne
      omega
    rw [List.getD_eq_getElem _ _ hlen]
    have := h _ (List.getElem_mem hlen)
    rw [decide_eq_true_eq] at this
    rw [this]
  · intro h x hx
    rw [h] at hx
    simp at hx

theorem divide_none_iff (p d : Toyni.Polynomial F) :
    p.divide d = none ↔ ((d.coefficients.isEmpty ∨ d.leadingCoefficient = 0)
      ∨ (¬ p.degree < d.degree ∧ p.coefficients.isEmpty = true)) := by
  unfold Toyni.Polynomial.divide
  by_cases hg : d.coefficients.isEmpty ∨ d.leadingCoefficient = 0
  · rw [if_pos hg]
    exact iff_of_true rfl (Or.inl hg)
  · rw [if_neg hg]
    by_cases hlt : p.degree < d.degree
    · rw [if_pos hlt]
      refine iff_of_false (by simp) ?_
      rintro (h | ⟨h1, _⟩)
      · exact hg h
      · exact h1 hlt
    · rw [if_neg hlt]
      by_cases hpe : p.coefficients.isEmpty = true
      · rw [if_pos hpe]
        exact iff_of_true rfl (Or.inr ⟨hlt, hpe⟩)
      · rw [if_neg hpe]
        refine iff_of_false (by simp) ?_
        rintro (h | ⟨_, h2⟩)
        · exact hg h
        · exact hpe h2

/-- C4 as stated is false: dividing `1` by the non-zero constant
polynomial `1` succeeds with zero remainder, whose degree (0, by the
code's convention for the zero polynomial) is not smaller than the
divisor's degree 0. -/
theorem C4_counterexample :
    Toyni.Polynomial.divide (⟨[1]⟩ : Toyni.Polynomial (Fin 5)) ⟨[1]⟩ = some (⟨[1]⟩, ⟨[]⟩)
    ∧ Toyni.NoTrailingZeros ((⟨[1]⟩ : Toyni.Polynomial (Fin 5)).coefficients)
    ∧ ¬ (⟨[1]⟩ : Toyni.Polynomial (Fin 5)).isZero = true
    ∧ ¬ ((⟨[]⟩ : Toyni.Polynomial (Fin 5)).degree
          < (⟨[1]⟩ : Toyni.Polynomial (Fin 5)).degree) := by
  decide

/-- C4 (amended): on stripped inputs, `divide` fails exactly on the zero
divisor or in the source's out-of-bounds panic case (zero dividend with a
degree-0 divisor, where the early return is skipped and the first loop
iteration reads `remainder[0]` on an empty vector); outside those cases it
returns `(Q, R)` with `Q·D + R = P` exactly and `R` either the zero
polynomial or of degree smaller than `D` (the original claim's strict
degree bound fails when `R` is zero and `D` is a non-zero constant); when
`degree(P) < degree(D)` it returns quotient `0` and remainder `P`. -/
theorem C4_divide_spec_amended (p d : Toyni.Polynomial F)
    (hp : Toyni.NoTrailingZeros p.coefficients)
    (hd : Toyni.NoTrailingZeros d.coefficients) :
    (p.divide d = none ↔ (d.isZero = true ∨ (p.isZero = true ∧ d.degree = 0)))
    ∧ (d.isZero ≠ true → ¬ (p.isZero = true ∧ d.degree = 0) →
        ∃ q r : Toyni.Polynomial F, p.divide d = some (q, r)
          ∧ (q.multiply d).add r = p
          ∧ (r.isZero = true ∨ r.degree < d.degree)
          ∧ (p.degree < d.degree → q = Toyni.Polynomial.zero ∧ r = p)) := by
  constructor
  · rw [divide_none_iff, isZero_iff_nil hd, isZero_iff_nil hp]
    constructor
    · rintro ((h | h) | ⟨hlt, hpe⟩)
      · exact Or.inl (List.isEmpty_iff.mp h)
      · left
        by_contra hne
        apply hd
        rw [getLast?_eq_getD hne]
        unfold Toyni.Polynomial.leadingCoefficient at h
        rw [getLast?_eq_getD hne] at h
        rw [Option.getD_some] at h
        rw [h]
      · have hpnil : p.coefficients = [] := List.isEmpty_iff.mp hpe
        have hpdeg : p.degree = 0 := by
          unfold Toyni.Polynomial.degree
          rw [if_pos hpe]
        right
        exact ⟨hpnil, by omega⟩
    · rintro (h | ⟨hpnil, hd0⟩)
      · exact Or.inl (Or.inl (List.isEmpty_iff.mpr h))
      · have hpdeg : p.degree = 0 := by
          unfold Toyni.Polynomial.degree
          rw [if_pos (List.isEmpty_iff.mpr hpnil)]
        exact Or.inr ⟨by omega, List.isEmpty_iff.mpr hpnil⟩
  · intro hnz hnp
    have hdne : d.coefficients ≠ [] := fun hnil => hnz ((isZero_iff_nil hd).mpr hnil)
    have hpanic : p.coefficients ≠ [] ∨ d.degree ≠ 0 := by
      by_cases hd0 : d.degree = 0
      · left
        intro hnil
        exact hnp ⟨(isZero_iff_nil hp).mpr hnil, hd0⟩
      · exact Or.inr hd0
    obtain ⟨q, r, hsome, hq, hr, hpoly, hlen⟩ := divide_spec p d hp hd hdne hpanic
    refine ⟨q, r, hsome, ?_, ?_, ?_⟩
    · apply polyExt
      apply eq_of_toPoly_eq (strip_noTrailingZeros _) hp
      have hstep : toPoly ((q.multiply d).add r).coefficients = toPoly p.coefficients := by
        rw [toPoly_add, toPoly_multiply, hpoly]
      exact hstep
    · by_cases hre : r.coefficients = []
      · exact Or.inl ((isZero_iff_nil hr).mpr hre)
      · right
        have hdeg : r.degree = r.coefficients.length - 1 := by
          unfold Toyni.Polynomial.degree
          rw [if_neg (by simpa [List.isEmpty_iff] using hre)]
        have hrlen : 0 < r.coefficients.length := List.length_pos.mpr hre
        omega
    · intro hlt
      have hguard : ¬ (d.coefficients.isEmpty ∨ d.leadingCoefficient = 0) := by
        intro hcon
        exact absurd ((divide_none_iff p d).mpr (Or.inl hcon)) (by rw [hsome]; simp)
      have hbranch : p.divide d = some (Toyni.Polynomial.zero, p) := by
        unfold Toyni.Polynomial.divide
        rw [if_neg hguard, if_pos hlt]
      rw [hbranch] at hsome
      have hpair := Option.some_inj.mp hsome
      exact ⟨(congrArg Prod.fst hpair).symm, (congrArg Prod.snd hpair).symm⟩

/-- Witness for the amended C4 at a concrete division over `Fin 5`:
`x² + 4` divided by `x + 1`. -/
theorem C4_divide_spec_amended_witness :
    Toyni.NoTrailingZeros ((⟨[4, 0, 1]⟩ : Toyni.Polynomial (Fin 5)).coefficients)
    ∧ Toyni.NoTrailingZeros ((⟨[1, 1]⟩ : Toyni.Polynomial (Fin 5)).coefficients)
    ∧ ((Toyni.Polynomial.divide (⟨[4, 0, 1]⟩ : Toyni.Polynomial (Fin 5)) ⟨[1, 1]⟩ = none
          ↔ ((⟨[1, 1]⟩ : Toyni.Polynomial (Fin 5)).isZero = true
            ∨ ((⟨[4, 0, 1]⟩ : Toyni.Polynomial (Fin 5)).isZero = true
              ∧ (⟨[1, 1]⟩ : Toyni.Polynomial (Fin 5)).degree = 0)))
      ∧ ((⟨[1, 1]⟩ : Toyni.Polynomial (Fin 5)).isZero ≠ true →
          ¬ ((⟨[4, 0, 1]⟩ : Toyni.Polynomial (Fin 5)).isZero = true
            ∧ (⟨[1, 1]⟩ : Toyni.Polynomial (Fin 5)).degree = 0) →
          ∃ q r : Toyni.Polynomial (Fin 5),
            Toyni.Polynomial.divide (⟨[4, 0, 1]⟩ : Toyni.Polynomial (Fin 5)) ⟨[1, 1]⟩
              = some (q, r)
            ∧ (q.multiply ⟨[1, 1]⟩).add r = ⟨[4, 0, 1]⟩
            ∧ (r.isZero = true ∨ r.degree < (⟨[1, 1]⟩ : Toyni.Polynomial (Fin 5)).degree)
            ∧ ((⟨[4, 0, 1]⟩ : Toyni.Polynomial (Fin 5)).degree
                  < (⟨[1, 1]⟩ : Toyni.Polynomial (Fin 5)).degree →
                q = Toyni.Polynomial.zero ∧ r = ⟨[4, 0, 1]⟩))) :=
  ⟨by decide, by decide,
    C4_divide_spec_amended (⟨[4, 0, 1]⟩ : Toyni.Polynomial (Fin 5)) ⟨[1, 1]⟩
      (by decide) (by decide)⟩

end ClaimC4

section ClaimC9

variable {F : Type} [Field F] [DecidableEq F]

theorem strip_append_zeros (l : List F) :
    Toyni.stripTrailingZeros (l ++ [0, 0]) = Toyni.stripTrailingZeros l := by
  unfold Toyni.stripTrailingZeros
  rw [List.reverse_append]
  show ((0 :: 0 :: l.reverse).dropWhile (fun c => decide (c = 0))).reverse = _
  rw [List.dropWhile_cons, if_pos (by simp), List.dropWhile_cons, if_pos (by simp)]

/-- C9: every polynomial produced by a constructor or operation (`new`,
`zero`, `add`, `multiply`, both components of `divide` on an
invariant-respecting dividend) has no trailing zero coefficients;
`new (coeffs ++ [0,0]) = new coeffs`; and the zero polynomial has the
canonical stripped (empty) representation. -/
theorem C9_no_trailing_zeros (l : List F) (p q d : Toyni.Polynomial F)
    (hp : Toyni.NoTrailingZeros p.coefficients) :
    Toyni.NoTrailingZeros (Toyni.Polynomial.new l).coefficients
    ∧ Toyni.NoTrailingZeros (Toyni.Polynomial.zero : Toyni.Polynomial F).coefficients
    ∧ Toyni.NoTrailingZeros (p.add q).coefficients
    ∧ Toyni.NoTrailingZeros (p.multiply q).coefficients
    ∧ (∀ q' r', p.divide d = some (q', r') →
        Toyni.NoTrailingZeros q'.coefficients ∧ Toyni.NoTrailingZeros r'.coefficients)
    ∧ Toyni.Polynomial.new (l ++ [0, 0]) = Toyni.Polynomial.new l
    ∧ (Toyni.Polynomial.zero : Toyni.Polynomial F).coefficients = [] := by
  refine ⟨strip_noTrailingZeros _, strip_noTrailingZeros _, strip_noTrailingZeros _,
    ?_, ?_, ?_, ?_⟩
  · unfold Toyni.Polynomial.multiply
    split_ifs
    · exact strip_noTrailingZeros _
    · exact strip_noTrailingZeros _
  · intro q' r' hdiv
    unfold Toyni.Polynomial.divide at hdiv
    by_cases hg : d.coefficients.isEmpty ∨ d.leadingCoefficient = 0
    · rw [if_pos hg] at hdiv
      exact absurd hdiv (by simp)
    · rw [if_neg hg] at hdiv
      by_cases hlt : p.degree < d.degree
      · rw [if_pos hlt] at hdiv
        have hpair := Option.some_inj.mp hdiv
        injection hpair with h1 h2
        constructor
        · rw [← h1]
          exact strip_noTrailingZeros _
        · rw [← h2]
          exact hp
      · rw [if_neg hlt] at hdiv
        by_cases hpe : p.coefficients.isEmpty = true
        · rw [if_pos hpe] at hdiv
          exact absurd hdiv (by simp)
        · rw [if_neg hpe] at hdiv
          have hpair := Option.some_inj.mp hdiv
          injection hpair with h1 h2
          constructor
          · rw [← h1]
            exact strip_noTrailingZeros _
          · rw [← h2]
            exact strip_noTrailingZeros _
  · unfold Toyni.Polynomial.new
    rw [strip_append_zeros]
  · show Toyni.stripTrailingZeros [(0 : F)] = []
    apply strip_eq_nil_of_zero
    intro k
    cases k with
    | zero => rfl
    | succ k => rfl

/-- Witness for C9 over `Fin 5` at concrete lists and polynomials. -/
theorem C9_no_trailing_zeros_witness :
    Toyni.NoTrailingZeros ((⟨[1]⟩ : Toyni.Polynomial (Fin 5)).coefficients)
    ∧ (Toyni.NoTrailingZeros
        (Toyni.Polynomial.new ([1, 2, 0] : List (Fin 5))).coefficients
      ∧ Toyni.NoTrailingZeros (Toyni.Polynomial.zero : Toyni.Polynomial (Fin 5)).coefficients
      ∧ Toyni.NoTrailingZeros
          ((⟨[1]⟩ : Toyni.Polynomial (Fin 5)).add ⟨[2]⟩).coefficients
      ∧ Toyni.NoTrailingZeros
          ((⟨[1]⟩ : Toyni.Polynomial (Fin 5)).multiply ⟨[2]⟩).coefficients
      ∧ (∀ q' r',
          Toyni.Polynomial.divide (⟨[1]⟩ : Toyni.Polynomial (Fin 5)) ⟨[1, 1]⟩
            = some (q', r') →
          Toyni.NoTrailingZeros q'.coefficients ∧ Toyni.NoTrailingZeros r'.coefficients)
      ∧ Toyni.Polynomial.new (([1, 2, 0] : List (Fin 5)) ++ [0, 0])
          = Toyni.Polynomial.new [1, 2, 0]
      ∧ (Toyni.Polynomial.zero : Toyni.Polynomial (Fin 5)).coefficients = []) :=
  ⟨by decide, C9_no_trailing_zeros [1, 2, 0] ⟨[1]⟩ ⟨[2]⟩ ⟨[1, 1]⟩ (by decide)⟩

end ClaimC9

section ClaimC6

variable {F : Type} [Field F] [DecidableEq F]

theorem appendFold_eq_map {α : Type} (f : ℕ → α) (n : ℕ) :
    (List.range n).foldl (fun acc i => acc ++ [f i]) [] = (List.range n).map f := by
  induction n with
  | zero => rfl
  | succ n ih =>
    rw [List.range_succ, List.foldl_append, List.foldl_cons, List.foldl_nil, ih,
      List.map_append]
    rfl

theorem getD_map_range' {α : Type} (f : ℕ → α) (d : α) (n k : ℕ) :
    ((List.range n).map f).getD k d = if k < n then f k else d := by
  by_cases h : k < n
  · rw [if_pos h, List.getD_eq_getElem _ _ (by simpa using h)]
    simp
  · rw [if_neg h, List.getD_eq_default _ _ (by simpa using h)]

/-- C6: on an even-length vector `fri_fold` succeeds and returns the
half-length vector with `w[i] = (v[i] + v[i+n/2])·½ + (v[i] − v[i+n/2])·½·β`;
on an odd-length vector it fails. -/
theorem C6_friFold_spec (v : List F) (beta : F) :
    (v.length % 2 = 0 →
      ∃ w, Toyni.friFold v beta = some w ∧ w.length = v.length / 2
        ∧ ∀ i, i < v.length / 2 →
            w.getD i 0 = (v.getD i 0 + v.getD (i + v.length / 2) 0) * (2 : F)⁻¹
              + (v.getD i 0 - v.getD (i + v.length / 2) 0) * (2 : F)⁻¹ * beta)
    ∧ (v.length % 2 ≠ 0 → Toyni.friFold v beta = none) := by
  constructor
  · intro he
    unfold Toyni.friFold
    rw [if_pos he, appendFold_eq_map]
    refine ⟨_, rfl, by simp, ?_⟩
    intro i hi
    rw [getD_map_range', if_pos hi]
  · intro ho
    unfold Toyni.friFold
    rw [if_neg ho]

/-- Witness for C6 at the concrete vector `[1, 2]` over `Fin 5`. -/
theorem C6_friFold_spec_witness :
    ((([1, 2] : List (Fin 5)).length % 2 = 0 →
      ∃ w, Toyni.friFold ([1, 2] : List (Fin 5)) 3 = some w
        ∧ w.length = ([1, 2] : List (Fin 5)).length / 2
        ∧ ∀ i, i < ([1, 2] : List (Fin 5)).length / 2 →
            w.getD i 0 = (([1, 2] : List (Fin 5)).getD i 0
                + ([1, 2] : List (Fin 5)).getD (i + ([1, 2] : List (Fin 5)).length / 2) 0)
                  * (2 : Fin 5)⁻¹
              + (([1, 2] : List (Fin 5)).getD i 0
                - ([1, 2] : List (Fin 5)).getD (i + ([1, 2] : List (Fin 5)).length / 2) 0)
                  * (2 : Fin 5)⁻¹ * 3)
    ∧ (([1, 2] : List (Fin 5)).length % 2 ≠ 0 →
        Toyni.friFold ([1, 2] : List (Fin 5)) 3 = none)) :=
  C6_friFold_spec [1, 2] 3

end ClaimC6

section ClaimC5

variable {F : Type} [Field F] [DecidableEq F] {R : Type} [Inhabited R]

/-- C5 as stated is false: with two distinguishable transition constraints
the code's flat vector is row-major (`[0, 1, 0, 1]`), not grouped per
constraint (`[0, 0, 1, 1]`). -/
theorem C5_counterexample :
    c5CS.evaluate c5Trace ≠ c5CS.evaluateGrouped c5Trace := by
  decide

theorem flatten_getD_uniform {α : Type} (L : List (List α)) (w : ℕ) (d : α)
    (hw : ∀ x ∈ L, x.length = w) :
    ∀ (i k : ℕ), i < L.length → k < w →
      L.flatten.getD (i * w + k) d = (L.getD i []).getD k d := by
  induction L with
  | nil =>
    intro i k hi _
    simp at hi
  | cons x rest ih =>
    intro i k hi hk
    have hx : x.length = w := hw x (by simp)
    cases i with
    | zero =>
      rw [List.flatten_cons]
      simp only [Nat.zero_mul, Nat.zero_add]
      rw [List.getD_append _ _ _ _ (by omega)]
      rfl
    | succ i =>
      rw [List.flatten_cons,
        show (i + 1) * w + k = x.length + (i * w + k) by rw [hx]; ring,
        List.getD_append_right _ _ _ _ (by omega),
        show x.length + (i * w + k) - x.length = i * w + k by omega,
        ih (fun y hy => hw y (by simp [hy])) i k (by simpa using hi) hk]
      rfl

/-- C5 (amended): `evaluate` returns `(H−1)·nT` transition evaluations
followed by the boundary evaluations; the transition block is ordered
row-major — the value at flat index `i·nT + k` is transition constraint
`k` (declaration order) evaluated at rows `(i, i+1)` — and the boundary
values follow in declaration order. -/
theorem C5_evaluate_order (t : Toyni.ExecutionTrace R) (cs : Toyni.ConstraintSystem R F) :
    (cs.evaluate t).length
        = (t.height - 1) * cs.transition_constraints.length
            + cs.boundary_constraints.length
    ∧ (∀ i k, i < t.height - 1 → ∀ hk : k < cs.transition_constraints.length,
        (cs.evaluate t).getD (i * cs.transition_constraints.length + k) 0
          = (cs.transition_constraints.get ⟨k, hk⟩).evaluate
              (t.getColumn i) (t.getColumn (i + 1)))
    ∧ (∀ j, ∀ hj : j < cs.boundary_constraints.length,
        (cs.evaluate t).getD
            ((t.height - 1) * cs.transition_constraints.length + j) 0
          = (cs.boundary_constraints.get ⟨j, hj⟩).evaluate
              (t.getColumn ((cs.boundary_constraints.get ⟨j, hj⟩).row))) := by
  have hwl : ∀ x ∈ (List.range (t.height - 1)).map (fun i =>
      cs.transition_constraints.map
        (fun c => c.evaluate (t.getColumn i) (t.getColumn (i + 1)))),
      x.length = cs.transition_constraints.length := by
    intro x hx
    obtain ⟨i, _, rfl⟩ := List.mem_map.mp hx
    rw [List.length_map]
  have hTlen : ((List.range (t.height - 1)).map (fun i =>
      cs.transition_constraints.map
        (fun c => c.evaluate (t.getColumn i) (t.getColumn (i + 1))))).flatten.length
      = (t.height - 1) * cs.transition_constraints.length := by
    rw [List.length_flatten]
    rw [show ((List.range (t.height - 1)).map (fun i =>
        cs.transition_constraints.map
          (fun c => c.evaluate (t.getColumn i) (t.getColumn (i + 1))))).map List.length
        = (List.range (t.height - 1)).map (fun _ => cs.transition_constraints.length) by
      rw [List.map_map]
      apply List.map_congr_left
      intro i _
      simp]
    rw [List.map_const', List.sum_replicate, List.length_range, smul_eq_mul]
  refine ⟨?_, ?_, ?_⟩
  · unfold Toyni.ConstraintSystem.evaluate
    rw [List.length_append, hTlen, List.length_map]
  · intro i k hi hk
    unfold Toyni.ConstraintSystem.evaluate
    have hidx : i * cs.transition_constraints.length + k
        < (t.height - 1) * cs.transition_constraints.length := by
      calc i * cs.transition_constraints.length + k
          < i * cs.transition_constraints.length + cs.transition_constraints.length := by omega
        _ = (i + 1) * cs.transition_constraints.length := by ring
        _ ≤ (t.height - 1) * cs.transition_constraints.length :=
            Nat.mul_le_mul_right _ (by omega)
    rw [List.getD_append _ _ _ _ (by rw [hTlen]; omega)]
    rw [flatten_getD_uniform _ _ _ hwl i k (by simp; omega) hk]
    rw [getD_map_range', if_pos (by omega)]
    rw [List.getD_eq_getElem _ _ (by rw [List.length_map]; omega)]
    simp
  · intro j hj
    unfold Toyni.ConstraintSystem.evaluate
    rw [List.getD_append_right _ _ _ _ (by rw [hTlen]; omega), hTlen,
      show (t.height - 1) * cs.transition_constraints.length + j
          - (t.height - 1) * cs.transition_constraints.length = j by omega]
    rw [List.getD_eq_getElem _ _ (by rw [List.length_map]; omega)]
    simp

/-- Witness for the amended C5 at the concrete two-constraint system. -/
theorem C5_evaluate_order_witness :
    (c5CS.evaluate c5Trace).length
        = (c5Trace.height - 1) * c5CS.transition_constraints.length
            + c5CS.boundary_constraints.length
    ∧ (∀ i k, i < c5Trace.height - 1 → ∀ hk : k < c5CS.transition_constraints.length,
        (c5CS.evaluate c5Trace).getD (i * c5CS.transition_constraints.length + k) 0
          = (c5CS.transition_constraints.get ⟨k, hk⟩).evaluate
              (c5Trace.getColumn i) (c5Trace.getColumn (i + 1)))
    ∧ (∀ j, ∀ hj : j < c5CS.boundary_constraints.length,
        (c5CS.evaluate c5Trace).getD
            ((c5Trace.height - 1) * c5CS.transition_constraints.length + j) 0
          = (c5CS.boundary_constraints.get ⟨j, hj⟩).evaluate
              (c5Trace.getColumn ((c5CS.boundary_constraints.get ⟨j, hj⟩).row))) :=
  C5_evaluate_order c5Trace c5CS

end ClaimC5

section ClaimC7

variable {α : Type} [Inhabited α] [DecidableEq α]

theorem nextLevel_length (combine : α → α → α) :
    ∀ cur : List α, (Toyni.nextLevel combine cur).length = (cur.length + 1) / 2
  | [] => by simp [Toyni.nextLevel]
  | [x] => by simp [Toyni.nextLevel]
  | x :: y :: rest => by
    rw [show Toyni.nextLevel combine (x :: y :: rest)
        = combine x y :: Toyni.nextLevel combine rest from rfl]
    rw [List.length_cons, nextLevel_length combine rest]
    simp only [List.length_cons]
    omega

theorem nextLevel_getD (combine : α → α → α) :
    ∀ (cur : List α) (j : ℕ), 2 * j < cur.length →
      (Toyni.nextLevel combine cur).getD j default
        = combine (cur.getD (2 * j) default)
            (cur.getD (min (2 * j + 1) (cur.length - 1)) default)
  | [], j, h => by simp at h
  | [x], j, h => by
    have hj : j = 0 := by
      simp at h
      omega
    subst hj
    rfl
  | x :: y :: rest, 0, h => by
    rw [show Toyni.nextLevel combine (x :: y :: rest)
        = combine x y :: Toyni.nextLevel combine rest from rfl]
    rw [show min (2 * 0 + 1) ((x :: y :: rest).length - 1) = 1 by
      simp only [List.length_cons]
      omega]
    rfl
  | x :: y :: rest, j + 1, h => by
    rw [show Toyni.nextLevel combine (x :: y :: rest)
        = combine x y :: Toyni.nextLevel combine rest from rfl]
    have hlen : 2 * j < rest.length := by
      simp only [List.length_cons] at h
      omega
    show (Toyni.nextLevel combine rest).getD j default = _
    rw [nextLevel_getD combine rest j hlen]
    rw [show (x :: y :: rest).getD (2 * (j + 1)) default = rest.getD (2 * j) default by
      rw [show 2 * (j + 1) = 2 * j + 1 + 1 by ring]
      rfl]
    congr 1
    have hrest : rest ≠ [] := by
      intro hnil
      rw [hnil] at hlen
      simp at hlen
    have hrlen : 0 < rest.length := List.length_pos.mpr hrest
    rw [show min (2 * (j + 1) + 1) ((x :: y :: rest).length - 1)
        = min (2 * j + 1) (rest.length - 1) + 2 by
      simp only [List.length_cons]
      omega]
    rw [show (x :: y :: rest).getD (min (2 * j + 1) (rest.length - 1) + 2) default
        = rest.getD (min (2 * j + 1) (rest.length - 1)) default from rfl]

theorem buildLevels_succ (combine : α → α → α) (fuel : ℕ) (cur : List α) :
    Toyni.buildLevels combine (fuel + 1) cur
      = if 1 < cur.length
        then cur :: Toyni.buildLevels combine fuel (Toyni.nextLevel combine cur)
        else [cur] := rfl

theorem buildLevels_ne_nil (combine : α → α → α) :
    ∀ (fuel : ℕ) (cur : List α), Toyni.buildLevels combine fuel cur ≠ []
  | 0, cur => by
    show [cur] ≠ []
    simp
  | fuel + 1, cur => by
    rw [buildLevels_succ]
    split_ifs <;> simp

theorem zip_proj_eq {β γ : Type} : ∀ l : List (β × γ), (l.map Prod.fst).zip (l.map Prod.snd) = l
  | [] => rfl
  | (a, b) :: rest => by
    rw [List.map_cons, List.map_cons, List.zip_cons_cons, zip_proj_eq rest]

/-- The central Merkle induction: for any level list built from `cur`, the
path recorded by `proofGo` hashes any in-range entry of `cur` back to the
root. -/
theorem buildLevels_verify (combine : α → α → α) :
    ∀ (fuel : ℕ) (cur : List α) (idx : ℕ), idx < cur.length → cur.length ≤ fuel →
      ∃ rt, (Toyni.buildLevels combine fuel cur).getLast?.bind List.head? = some rt
        ∧ Toyni.verifyGo combine (cur.getD idx default)
            (Toyni.proofGo ((Toyni.buildLevels combine fuel cur).take
              ((Toyni.buildLevels combine fuel cur).length - 1)) idx) = rt := by
  intro fuel
  induction fuel with
  | zero =>
    intro cur idx hidx hfuel
    omega
  | succ fuel ih =>
    intro cur idx hidx hfuel
    by_cases hlen : 1 < cur.length
    · rw [buildLevels_succ, if_pos hlen]
      have hnext_len : (Toyni.nextLevel combine cur).length = (cur.length + 1) / 2 :=
        nextLevel_length combine cur
      have hidx2 : idx / 2 < (Toyni.nextLevel combine cur).length := by
        rw [hnext_len]
        omega
      have hfuel2 : (Toyni.nextLevel combine cur).length ≤ fuel := by
        rw [hnext_len]
        omega
      obtain ⟨rt, hroot, hverify⟩ := ih (Toyni.nextLevel combine cur) (idx / 2) hidx2 hfuel2
      have hne := buildLevels_ne_nil combine fuel (Toyni.nextLevel combine cur)
      obtain ⟨r0, rest0, hrest⟩ := List.exists_cons_of_ne_nil hne
      refine ⟨rt, ?_, ?_⟩
      · rw [hrest, List.getLast?_cons_cons, ← hrest]
        exact hroot
      · have htake : (cur :: Toyni.buildLevels combine fuel (Toyni.nextLevel combine cur)).take
            ((cur :: Toyni.buildLevels combine fuel (Toyni.nextLevel combine cur)).length - 1)
            = cur :: (Toyni.buildLevels combine fuel (Toyni.nextLevel combine cur)).take
                ((Toyni.buildLevels combine fuel (Toyni.nextLevel combine cur)).length - 1) := by
          rw [List.length_cons]
          rw [show (Toyni.buildLevels combine fuel (Toyni.nextLevel combine cur)).length + 1 - 1
              = ((Toyni.buildLevels combine fuel (Toyni.nextLevel combine cur)).length - 1) + 1
              by
            rw [hrest]
            simp]
          rw [List.take_succ_cons]
        rw [htake]
        have hhead : ∀ tail : List (α × Bool), ∀ hv : α,
            hv = (Toyni.nextLevel combine cur).getD (idx / 2) default →
            Toyni.verifyGo combine (cur.getD idx default)
              ((if cur.length ≤ (if idx % 2 = 0 then idx + 1 else idx - 1)
                then (cur.getD idx default, true)
                else (cur.getD (if idx % 2 = 0 then idx + 1 else idx - 1) default,
                  decide (idx % 2 = 1))) :: tail)
              = Toyni.verifyGo combine hv tail := by
          intro tail hv hhv
          subst hhv
          by_cases hpar : idx % 2 = 0
          · rw [if_pos hpar]
            by_cases hodd : cur.length ≤ idx + 1
            · rw [if_pos hodd]
              show Toyni.verifyGo combine (combine (cur.getD idx default) (cur.getD idx default))
                  tail = _
              rw [nextLevel_getD combine cur (idx / 2) (by omega)]
              rw [show 2 * (idx / 2) = idx by omega,
                show min (idx + 1) (cur.length - 1) = idx by omega]
            · rw [if_neg hodd]
              have hdec : (decide (idx % 2 = 1) : Bool) = false := by
                rw [decide_eq_false_iff_not]
                omega
              rw [hdec]
              show Toyni.verifyGo combine
                  (combine (cur.getD idx default) (cur.getD (idx + 1) default)) tail = _
              rw [nextLevel_getD combine cur (idx / 2) (by omega)]
              rw [show 2 * (idx / 2) = idx by omega,
                show min (idx + 1) (cur.length - 1) = idx + 1 by omega]
          · rw [if_neg hpar]
            rw [if_neg (show ¬ cur.length ≤ idx - 1 by omega)]
            have hdec : (decide (idx % 2 = 1) : Bool) = true := by
              rw [decide_eq_true_eq]
              omega
            rw [hdec]
            show Toyni.verifyGo combine
                (combine (cur.getD (idx - 1) default) (cur.getD idx default)) tail = _
            rw [nextLevel_getD combine cur (idx / 2) (by omega)]
            rw [show 2 * (idx / 2) = idx - 1 by omega,
              show min (idx - 1 + 1) (cur.length - 1) = idx by omega]
        rw [show Toyni.proofGo
            (cur :: (Toyni.buildLevels combine fuel (Toyni.nextLevel combine cur)).take
              ((Toyni.buildLevels combine fuel (Toyni.nextLevel combine cur)).length - 1)) idx
            = (if cur.length ≤ (if idx % 2 = 0 then idx + 1 else idx - 1)
                then (cur.getD idx default, true)
                else (cur.getD (if idx % 2 = 0 then idx + 1 else idx - 1) default,
                  decide (idx % 2 = 1)))
              :: Toyni.proofGo
                ((Toyni.buildLevels combine fuel (Toyni.nextLevel combine cur)).take
                  ((Toyni.buildLevels combine fuel (Toyni.nextLevel combine cur)).length - 1))
                (idx / 2) from rfl]
        rw [hhead _ _ rfl]
        exact hverify
    · rw [buildLevels_succ, if_neg hlen]
      have hone : cur.length = 1 := by omega
      obtain ⟨x, hx⟩ := List.length_eq_one.mp hone
      subst hx
      have hidx0 : idx = 0 := by
        simp at hidx
        omega
      subst hidx0
      exact ⟨x, rfl, rfl⟩

/-- C7: for every non-empty leaf list and every in-range index, opening a
proof and verifying it against the root succeeds (with the odd-level
self-pairing convention baked into `get_proof`); `get_proof` fails exactly
when the index is out of range. -/
theorem C7_merkle_verify (combine : α → α → α) (leaves : List α) (i : ℕ) :
    (∀ h : i < leaves.length,
      ∃ pr rt, (Toyni.MerkleTree.new combine leaves).getProof i = some pr
        ∧ (Toyni.MerkleTree.new combine leaves).root = some rt
        ∧ Toyni.verifyMerkleProof combine (leaves.get ⟨i, h⟩) pr rt = true)
    ∧ ((Toyni.MerkleTree.new combine leaves).getProof i = none ↔ leaves.length ≤ i) := by
  have hleaves : (Toyni.MerkleTree.new combine leaves).leaves = leaves := rfl
  have hlevels : (Toyni.MerkleTree.new combine leaves).levels
      = Toyni.buildLevels combine leaves.length leaves := rfl
  constructor
  · intro h
    obtain ⟨rt, hroot, hverify⟩ :=
      buildLevels_verify combine leaves.length leaves i h (le_refl _)
    have hsome : (Toyni.MerkleTree.new combine leaves).getProof i
        = some ⟨(Toyni.proofGo ((Toyni.buildLevels combine leaves.length leaves).take
              ((Toyni.buildLevels combine leaves.length leaves).length - 1)) i).map Prod.fst,
            (Toyni.proofGo ((Toyni.buildLevels combine leaves.length leaves).take
              ((Toyni.buildLevels combine leaves.length leaves).length - 1)) i).map Prod.snd⟩ := by
      unfold Toyni.MerkleTree.getProof
      rw [hleaves, hlevels, if_neg (by omega)]
    refine ⟨_, rt, hsome, ?_, ?_⟩
    · unfold Toyni.MerkleTree.root
      rw [hlevels]
      exact hroot
    · unfold Toyni.verifyMerkleProof
      rw [decide_eq_true_eq, zip_proj_eq]
      rw [show leaves.get ⟨i, h⟩ = leaves.getD i default from
        (List.getD_eq_getElem _ _ h).symm]
      exact hverify
  · unfold Toyni.MerkleTree.getProof
    rw [hleaves, hlevels]
    by_cases hge : leaves.length ≤ i
    · rw [if_pos hge]
      simp [hge]
    · rw [if_neg hge]
      simp
      omega

/-- Witness for C7 on a three-leaf tree at the odd (self-paired) index 2. -/
theorem C7_merkle_verify_witness :
    ((∀ h : 2 < ([10, 20, 30] : List ℕ).length,
      ∃ pr rt, (Toyni.MerkleTree.new wCombine [10, 20, 30]).getProof 2 = some pr
        ∧ (Toyni.MerkleTree.new wCombine [10, 20, 30]).root = some rt
        ∧ Toyni.verifyMerkleProof wCombine (([10, 20, 30] : List ℕ).get ⟨2, h⟩) pr rt = true)
    ∧ ((Toyni.MerkleTree.new wCombine [10, 20, 30]).getProof 2 = none
        ↔ ([10, 20, 30] : List ℕ).length ≤ 2)) :=
  C7_merkle_verify wCombine [10, 20, 30] 2

end ClaimC7

section ClaimC1

variable {F : Type} [Field F] [DecidableEq F] {R : Type} [Inhabited R]

theorem friReplay_iff (bs : List F) :
    ∀ (cur : List F) (ls : List (List F)),
      Toyni.friReplay cur bs ls = some true ↔ Toyni.ReplayMatches cur bs ls := by
  induction bs with
  | nil =>
    intro cur ls
    constructor
    · intro _
      trivial
    · intro _
      rfl
  | cons beta bs ih =>
    intro cur ls
    cases hf : Toyni.friFold cur beta with
    | none =>
      cases ls with
      | nil =>
        constructor
        · intro hcon
          rw [show Toyni.friReplay cur (beta :: bs) [] =
              (match Toyni.friFold cur beta with
               | none => none
               | some _ => some false) from rfl, hf] at hcon
          exact absurd hcon (by simp)
        · intro hcon
          exact absurd hcon id
      | cons l ls =>
        constructor
        · intro hcon
          rw [show Toyni.friReplay cur (beta :: bs) (l :: ls) =
              (match Toyni.friFold cur beta with
               | none => none
               | some folded => if l = folded then Toyni.friReplay l bs ls else some false)
              from rfl, hf] at hcon
          exact absurd hcon (by simp)
        · rintro ⟨hcon, -⟩
          rw [hf] at hcon
          exact absurd hcon (by simp)
    | some folded =>
      cases ls with
      | nil =>
        constructor
        · intro hcon
          rw [show Toyni.friReplay cur (beta :: bs) [] =
              (match Toyni.friFold cur beta with
               | none => none
               | some _ => some false) from rfl, hf] at hcon
          exact absurd hcon (by simp)
        · intro hcon
          exact absurd hcon id
      | cons l ls =>
        rw [show Toyni.friReplay cur (beta :: bs) (l :: ls) =
            (match Toyni.friFold cur beta with
             | none => none
             | some folded => if l = folded then Toyni.friReplay l bs ls else some false)
            from rfl, hf]
        show (if l = folded then Toyni.friReplay l bs ls else some false) = some true ↔
          Toyni.friFold cur beta = some l ∧ Toyni.ReplayMatches l bs ls
        by_cases hl : l = folded
        · rw [if_pos hl, hf, hl]
          rw [ih folded ls]
          simp
        · rw [if_neg hl]
          constructor
          · intro hcon
            exact absurd hcon (by simp)
          · rintro ⟨hcon, -⟩
            rw [hf, Option.some_inj] at hcon
            exact absurd hcon.symm hl

/-- C1: `StarkVerifier::verify` returns true if and only if all 80 sampled
consistency queries satisfy `Q(x₀)·Z_H(x₀) = C(x₀)` at the sampled
extended-domain point `x₀` and folding each recorded layer with the
corresponding recorded challenge yields exactly the next recorded layer;
any mismatch yields a non-accepting result (`none` models the panic on an
odd-length fold). -/
theorem C1_verify_accepts_iff (v : Toyni.StarkVerifier R F) (ωe : F)
    (proof : Toyni.StarkProof F) (rand : ℕ → ℕ) :
    v.verify ωe proof rand = some true ↔
      ((∀ i, i < Toyni.VERIFIER_QUERIES →
          proof.quotient_poly.evaluate (ωe ^ (rand i % (2 * v.trace_len)))
              * (Toyni.vanishingPolynomial v.trace_len).evaluate
                  (ωe ^ (rand i % (2 * v.trace_len)))
            = proof.combined_constraint.evaluate (ωe ^ (rand i % (2 * v.trace_len))))
        ∧ Toyni.ReplayMatches proof.quotient_eval_domain proof.fri_challenges
            (proof.fri_layers.drop 1)) := by
  unfold Toyni.StarkVerifier.verify
  by_cases hall : (List.range Toyni.VERIFIER_QUERIES).all (fun i =>
      decide (proof.quotient_poly.evaluate (ωe ^ (rand i % (2 * v.trace_len)))
          * (Toyni.vanishingPolynomial v.trace_len).evaluate (ωe ^ (rand i % (2 * v.trace_len)))
        = proof.combined_constraint.evaluate (ωe ^ (rand i % (2 * v.trace_len))))) = true
  · rw [if_pos hall, friReplay_iff]
    rw [List.all_eq_true] at hall
    constructor
    · intro hreplay
      refine ⟨?_, hreplay⟩
      intro i hi
      have := hall i (List.mem_range.mpr hi)
      rwa [decide_eq_true_eq] at this
    · rintro ⟨-, hreplay⟩
      exact hreplay
  · rw [if_neg hall]
    constructor
    · intro hcon
      exact absurd hcon (by simp)
    · rintro ⟨hspot, -⟩
      exfalso
      apply hall
      rw [List.all_eq_true]
      intro i hi
      rw [decide_eq_true_eq]
      exact hspot i (List.mem_range.mp hi)

end ClaimC1

section ClaimC10

variable {F : Type} [Field F] [DecidableEq F] {R : Type} [Inhabited R]

/-- C10: the verifier's result does not depend on the constraint system it
was constructed with — `verify` never reads the `constraints` field. -/
theorem C10_verifier_ignores_constraints (cs1 cs2 : Toyni.ConstraintSystem R F) (n : ℕ)
    (proof : Toyni.StarkProof F) (ωe : F) (rand : ℕ → ℕ) :
    (Toyni.StarkVerifier.mk cs1 n).verify ωe proof rand
      = (Toyni.StarkVerifier.mk cs2 n).verify ωe proof rand := rfl

end ClaimC10

section ClaimC8

/-- The proof the prover emits on the E2 instance (challenge stream `3`):
the combined constraint interpolates the boundary violation to
`13·(1 + x + x² + x³)`, the division by `x⁴ − 1` leaves it entirely in the
remainder, and the quotient (hence every FRI layer) is zero. -/
theorem e2_generateProof_eq :
    Toyni.generateProof 4 2 (fun _ => 3) e2Trace e2CS
      = some { quotient_eval_domain := List.replicate 8 0
               fri_layers := [List.replicate 8 0, List.replicate 4 0]
               fri_challenges := [3]
               combined_constraint := ⟨[13, 13, 13, 13]⟩
               quotient_poly := ⟨[]⟩ } := by
  decide

/-- C8 as stated is false: the verifier's query indices are random, and
there are draws on which it accepts the E2 proof — for instance when every
one of the 80 sampled indices is 2, so that every sampled point
`x₀ = 2² = 4` is a non-trivial 4th root of unity, where the non-zero
combined constraint happens to vanish and `Q·Z = C` holds as `0 = 0`. -/
theorem C8_counterexample :
    (Toyni.generateProof 4 2 (fun _ => 3) e2Trace e2CS).map
      (fun proof => (Toyni.StarkVerifier.mk e2CS 4).verify 2 proof (fun _ => 2))
      = some (some true) := by
  decide

/-- C8 (amended): on the E2 instance (height-4 trace `x = i + 1` with the
`incr` transition and `zero@0` boundary constraints), prove-then-verify
returns false whenever at least one of the 80 sampled indices is not
congruent to 2, 4 or 6 mod 8 — i.e. whenever some sampled point is not a
non-trivial 4th root of unity; draws landing entirely on those residues
make the verifier accept. -/
theorem C8_e2_verify_rejects (rand : ℕ → ℕ) (i : ℕ) (hi : i < Toyni.VERIFIER_QUERIES)
    (hbad : rand i % 8 ≠ 2 ∧ rand i % 8 ≠ 4 ∧ rand i % 8 ≠ 6) :
    (Toyni.generateProof 4 2 (fun _ => 3) e2Trace e2CS).map
      (fun proof => (Toyni.StarkVerifier.mk e2CS 4).verify 2 proof rand)
      = some (some false) := by
  rw [e2_generateProof_eq]
  show some ((Toyni.StarkVerifier.mk e2CS 4).verify 2
      { quotient_eval_domain := List.replicate 8 0
        fri_layers := [List.replicate 8 0, List.replicate 4 0]
        fri_challenges := [3]
        combined_constraint := ⟨[13, 13, 13, 13]⟩
        quotient_poly := ⟨[]⟩ } rand) = some (some false)
  refine congrArg some ?_
  unfold Toyni.StarkVerifier.verify
  rw [if_neg]
  intro hall
  have hq := List.all_eq_true.mp hall i (List.mem_range.mpr hi)
  rw [decide_eq_true_eq] at hq
  rw [show 2 * (Toyni.StarkVerifier.mk e2CS 4).trace_len = 8 from rfl] at hq
  have h8 : rand i % 8 < 8 := Nat.mod_lt _ (by norm_num)
  obtain ⟨j, hj⟩ : ∃ j, rand i % 8 = j := ⟨_, rfl⟩
  rw [hj] at hq h8
  obtain ⟨hb2, hb4, hb6⟩ := hbad
  rw [hj] at hb2 hb4 hb6
  interval_cases j
  · exact absurd hq (by decide)
  · exact absurd hq (by decide)
  · exact absurd rfl hb2
  · exact absurd hq (by decide)
  · exact absurd rfl hb4
  · exact absurd hq (by decide)
  · exact absurd rfl hb6
  · exact absurd hq (by decide)

/-- Witness for the amended C8: the all-zero query draw samples `x₀ = 1`,
where the combined constraint does not vanish, so the verifier rejects. -/
theorem C8_e2_verify_rejects_witness :
    (0 < Toyni.VERIFIER_QUERIES)
    ∧ ((0 : ℕ) % 8 ≠ 2 ∧ (0 : ℕ) % 8 ≠ 4 ∧ (0 : ℕ) % 8 ≠ 6)
    ∧ (Toyni.generateProof 4 2 (fun _ => 3) e2Trace e2CS).map
        (fun proof => (Toyni.StarkVerifier.mk e2CS 4).verify 2 proof (fun _ => 0))
        = some (some false) :=
  ⟨by decide, ⟨by decide, by decide, by decide⟩,
    C8_e2_verify_rejects (fun _ => 0) 0 (by decide) ⟨by decide, by decide, by decide⟩⟩

end ClaimC8
